import Mathlib

/-!
# StorLever dashboard, `system-info.js`: the CPU usage sampler

A shallow embedding of the `SystemInfo` controller's `overview` object
(`storlever/static/js/partials/system-info.js`) and theorems about it.

Modelling conventions.

* A JavaScript number is a `JSNum`: a finite IEEE-754 double, given by its rational value, or
  one of the three special values `Infinity`, `-Infinity`, `NaN`.  Every arithmetic result is
  rounded to the nearest double, a tie going to the even mantissa (`Double.round`), and becomes
  an infinity when the rounded magnitude reaches `2 ^ 1024` (`JSNum.ofRat`).  The special
  values follow the IEEE rules the language uses, in particular `x / 0` is `NaN` for `x = 0`
  and an infinity otherwise.  The two zeros are one value: the only divisor the code computes
  is `totle`, a sum that starts from `+0` and therefore is never `-0`.
* A counter snapshot (the JSON body of `/system/cpu_times`) is an association list from
  property names to the numbers the JSON text denotes, in property order.  Reading a property
  gives the double nearest to its number, as the JSON parser does; reading a missing property
  yields `undefined`, which arithmetic turns into `NaN`.
* `$scope.overview.cpu` together with the browser facilities it talks to (interval timers,
  outstanding HTTP requests) is one explicit `State` record; each function of the source is a
  function on that record, and the asynchronous callbacks are events applied by `step`.
-/

namespace StorLever

/-! ## Rounding to a double -/

namespace Double

/-- The nearest integer, a tie going to the even neighbour. -/
def rne (y : ℚ) : ℤ :=
  if y - ⌊y⌋ < 1 / 2 then ⌊y⌋
  else if 1 / 2 < y - ⌊y⌋ then ⌊y⌋ + 1
  else if ⌊y⌋ % 2 = 0 then ⌊y⌋ else ⌊y⌋ + 1

/-- The binary exponent of the binade of `x`, not below the subnormal range. -/
def exponent (x : ℚ) : ℤ := max (Int.log 2 |x|) (-1022)

/-- The spacing of the doubles in the binade of `x`: 53 significant bits. -/
def ulp (x : ℚ) : ℚ := (2 : ℚ) ^ (exponent x - 52)

/-- The multiple of the spacing nearest to `x`, a tie going to the even multiple: the value
of the double nearest to `x`, before the overflow check. -/
def round (x : ℚ) : ℚ :=
  if 0 ≤ x then (rne (x / ulp x) : ℚ) * ulp x else -((rne (-x / ulp x) : ℚ) * ulp x)

end Double

/-! ## JavaScript numbers -/

/-- A JavaScript number: a finite double (its value), or `Infinity`, `-Infinity`, `NaN`. -/
inductive JSNum where
  | fin (q : ℚ)
  | posInf
  | negInf
  | nan
  deriving DecidableEq

namespace JSNum

/-- The number nearest to the rational `x`: the nearest double, or an infinity when the
rounded magnitude is `2 ^ 1024` or more. -/
def ofRat (x : ℚ) : JSNum :=
  if (2 : ℚ) ^ 1024 ≤ Double.round x then posInf
  else if Double.round x ≤ -(2 : ℚ) ^ 1024 then negInf
  else fin (Double.round x)

/-- Unary minus. -/
def neg : JSNum → JSNum
  | fin a => fin (-a)
  | posInf => negInf
  | negInf => posInf
  | nan => nan

/-- The `+` operator on numbers. -/
def add : JSNum → JSNum → JSNum
  | fin a, fin b => ofRat (a + b)
  | nan, _ => nan
  | _, nan => nan
  | posInf, negInf => nan
  | negInf, posInf => nan
  | posInf, _ => posInf
  | _, posInf => posInf
  | negInf, _ => negInf
  | _, negInf => negInf

/-- The `-` operator on numbers. -/
def sub (a b : JSNum) : JSNum := add a (neg b)

/-- An infinity with the sign of `pos`. -/
def signedInf (pos : Bool) : JSNum := if pos then posInf else negInf

/-- The `*` operator on numbers. -/
def mul : JSNum → JSNum → JSNum
  | fin a, fin b => ofRat (a * b)
  | nan, _ => nan
  | _, nan => nan
  | posInf, fin b => if b = 0 then nan else signedInf (decide (0 < b))
  | negInf, fin b => if b = 0 then nan else signedInf (decide (b < 0))
  | fin a, posInf => if a = 0 then nan else signedInf (decide (0 < a))
  | fin a, negInf => if a = 0 then nan else signedInf (decide (a < 0))
  | posInf, posInf => posInf
  | negInf, negInf => posInf
  | posInf, negInf => negInf
  | negInf, posInf => negInf

/-- The `/` operator on numbers: a finite non-zero value over zero is an infinity of its sign,
zero over zero is `NaN`. -/
def div : JSNum → JSNum → JSNum
  | fin a, fin b =>
      if b = 0 then (if a = 0 then nan else signedInf (decide (0 < a))) else ofRat (a / b)
  | nan, _ => nan
  | _, nan => nan
  | fin _, posInf => fin 0
  | fin _, negInf => fin 0
  | posInf, fin b => signedInf (decide (0 ≤ b))
  | negInf, fin b => signedInf (decide (b < 0))
  | posInf, posInf => nan
  | posInf, negInf => nan
  | negInf, posInf => nan
  | negInf, negInf => nan

/-- The function `Math.round`: the nearest integer, halves going up; the special values are
returned as they are.  No rounding to a double is needed: for a double `a` below `2 ^ 52` in
magnitude the integer has at most 53 bits, and a larger double is an integer already. -/
def round : JSNum → JSNum
  | fin a => fin ((⌊a + 1 / 2⌋ : ℤ) : ℚ)
  | x => x

instance : Add JSNum := ⟨add⟩
instance : Sub JSNum := ⟨sub⟩
instance : Mul JSNum := ⟨mul⟩
instance : Div JSNum := ⟨div⟩

end JSNum

/-! ## Counter snapshots -/

/-- The response of `/system/cpu_times`: property names with the numbers the JSON text
denotes, in property order. -/
abbrev Snapshot := List (String × ℚ)

/-- The property names of an object, as `for (var key in o)` enumerates them. -/
def Snapshot.keys (o : Snapshot) : List String := o.map Prod.fst

/-- The property read `o[key]` used as a number: the double nearest to the number in the JSON
text; a missing property is `undefined`, which becomes `NaN` in arithmetic. -/
def Snapshot.get (o : Snapshot) (key : String) : JSNum :=
  match o.lookup key with
  | some v => JSNum.ofRat v
  | none => JSNum.nan

/-- An association list stands for an object when no property name occurs twice. -/
def Snapshot.WellFormed (o : Snapshot) : Prop := o.keys.Nodup

instance (o : Snapshot) : Decidable o.WellFormed := by
  unfold Snapshot.WellFormed; infer_instance

/-! ## The delta calculator -/

/-- The function `getCPUPrecent(c, p)`:
```
var totle = 0, idle = 0;
for (var key in c){ totle += c[key] - p[key]; }
idle = c.idle - p.idle;
return Math.round((totle - idle) * 10000/ totle) / 100;
```
-/
def getCPUPrecent (c p : Snapshot) : JSNum :=
  let totle := c.keys.foldl (fun totle key => totle + (c.get key - p.get key)) (JSNum.fin 0)
  let idle := c.get "idle" - p.get "idle"
  JSNum.round ((totle - idle) * JSNum.fin 10000 / totle) / JSNum.fin 100

/-! ## The controller state -/

/-- The deferred object made by `$q.defer()`, stored in `cpu.aborter`; its promise is the
`timeout` of the request. -/
structure Deferred where
  /-- Whether `resolve()` has been called on it. -/
  resolved : Bool
  deriving DecidableEq

/-- The mutable fields of `$scope.overview.cpu` and the browser facilities the sampler uses.
A field that is `undefined` in the source is `none`. -/
structure State where
  /-- The field `cpu.timer`: the handle returned by `window.setInterval`. -/
  timer : Option Nat
  /-- The field `cpu.aborter`. -/
  aborter : Option Deferred
  /-- The field `cpu.pre`: the previous snapshot. -/
  pre : Option Snapshot
  /-- The array `cpu.data[0]`: the window the chart draws. -/
  data : List JSNum
  /-- Browser: the handles of the interval timers that are active. -/
  intervals : List Nat
  /-- Browser: the handle the next `window.setInterval` returns. -/
  nextHandle : Nat
  /-- Transport: the `cpu_times` requests issued and not yet completed. -/
  inflight : Nat
  /-- Transport: the one-shot requests issued by `show` (localhost, selinux, cpu_list). -/
  staticGets : Nat
  deriving DecidableEq

/-- The object literal of the source: `data: [[0,0,0,0,0,0,0,0,0,0,0]]`, no `timer`,
no `aborter`, no `pre`; nothing scheduled, nothing requested. -/
def initState : State where
  timer := none
  aborter := none
  pre := none
  data := List.replicate 11 (JSNum.fin 0)
  intervals := []
  nextHandle := 1
  inflight := 0
  staticGets := 0

/-- The function `startGetCPUTimes`:
```
if (undefined !== $scope.overview.cpu.timer){ return; }
$scope.overview.cpu.timer = window.setInterval(function(){ ...getCPUTimes(); }, 1000);
```
-/
def startGetCPUTimes (s : State) : State :=
  match s.timer with
  | some _ => s
  | none =>
    { s with
      timer := some s.nextHandle
      intervals := s.intervals ++ [s.nextHandle]
      nextHandle := s.nextHandle + 1 }

/-- The function `show`: four one-shot `$http.get` calls (localhost, selinux, and cpu_list
twice), then `startGetCPUTimes()`. -/
def «show» (s : State) : State :=
  startGetCPUTimes { s with staticGets := s.staticGets + 4 }

/-- The function `getCPUTimes`, up to the request being sent:
```
if (undefined !== $scope.overview.cpu.aborter){ return; }
$scope.overview.cpu.aborter = $q.defer(),
$http.get("/storlever/api/v1/system/cpu_times", {timeout: ...aborter.promise})
```
-/
def getCPUTimes (s : State) : State :=
  match s.aborter with
  | some _ => s
  | none => { s with aborter := some ⟨false⟩, inflight := s.inflight + 1 }

/-- The statements `cpu.data[0].push(present); if (11 <= cpu.data[0].length) { cpu.data[0].shift(); }`
of the success callback. -/
def pushShift (data : List JSNum) (present : JSNum) : List JSNum :=
  let pushed := data ++ [present]
  if 11 ≤ pushed.length then pushed.tail else pushed

/-- The `.success(function(response) {...})` callback of `getCPUTimes`:
```
delete $scope.overview.cpu.aborter;
if (undefined === $scope.overview.cpu.pre) { $scope.overview.cpu.pre = response; return; }
var present = $scope.overview.getCPUPrecent(response, $scope.overview.cpu.pre);
$scope.overview.cpu.data[0].push(present);
if (11 <= $scope.overview.cpu.data[0].length) { $scope.overview.cpu.data[0].shift(); }
$scope.overview.cpu.pre = response;
```
-/
def onSuccess (response : Snapshot) (s : State) : State :=
  let s1 := { s with aborter := none }
  match s1.pre with
  | none => { s1 with pre := some response }
  | some pre =>
    let present := getCPUPrecent response pre
    { s1 with data := pushShift s1.data present, pre := some response }

/-- The `.error(function(){...})` callback of `getCPUTimes`: `delete $scope.overview.cpu.aborter;`. -/
def onError (s : State) : State :=
  { s with aborter := none }

/-- How a call ended: it returned, or it threw a `TypeError`; either way with the state
as the call left it. -/
inductive Outcome where
  | returned (s : State)
  | typeError (s : State)
  deriving DecidableEq

/-- The state a call left behind. -/
def Outcome.state : Outcome → State
  | returned s => s
  | typeError s => s

/-- The function `distory`:
```
if (undefined !== $scope.overview.cpu.timer){
    window.clearInterval($scope.overview.cpu.timer);
    delete $scope.overview.cpu.timer;
}
if (undefined !== $scope.overview.cpu.aborter){
    $scope.overview.cpu.resolve();
    delete $scope.overview.cpu.aborter;
}
```
The object `cpu` has the properties `series`, `labels`, `data`, `options` and, once set,
`timer`, `aborter`, `pre`; it has no `resolve`.  The call `cpu.resolve()` therefore throws
a `TypeError`, and the `delete` after it is not reached. -/
def distory (s : State) : Outcome :=
  let s1 :=
    match s.timer with
    | some h => { s with intervals := s.intervals.erase h, timer := none }
    | none => s
  match s1.aborter with
  | some _ => Outcome.typeError s1
  | none => Outcome.returned s1

/-! ## Events -/

/-- What can happen to the controller: the view calls `show`, `startGetCPUTimes` or `distory`,
an interval timer fires (`tick`, a call of `getCPUTimes`), or an outstanding `cpu_times`
request completes, with a response or with an error. -/
inductive Event where
  | «show»
  | startGetCPUTimes
  | tick
  | success (response : Snapshot)
  | error
  | distory
  deriving DecidableEq

/-- One event.  A completion happens only to a request that is outstanding; it takes the
request off the wire and runs the matching callback. -/
def step (s : State) : Event → State
  | Event.show => «show» s
  | Event.startGetCPUTimes => startGetCPUTimes s
  | Event.tick => getCPUTimes s
  | Event.success response =>
    if 0 < s.inflight then onSuccess response { s with inflight := s.inflight - 1 } else s
  | Event.error =>
    if 0 < s.inflight then onError { s with inflight := s.inflight - 1 } else s
  | Event.distory => (distory s).state

/-- A sequence of events, from left to right. -/
def run (s : State) (events : List Event) : State := events.foldl step s

/-! ## The delta calculation as the specification words it -/

namespace Spec

/-- The counter `o[k]` as a rational (zero when the key is missing). -/
def counter (o : Snapshot) (k : String) : ℚ := (o.lookup k).getD 0

/-- The sum over the keys `k` of `current[k] - previous[k]`. -/
def total (current previous : Snapshot) : ℚ :=
  ∑ k in current.keys.toFinset, (counter current k - counter previous k)

/-- The difference `current[idle] - previous[idle]`. -/
def idleDelta (current previous : Snapshot) : ℚ :=
  counter current "idle" - counter previous "idle"

/-- Rounding to the nearest integer, halves going up. -/
def roundHalfUp (x : ℚ) : ℤ := ⌊x + 1 / 2⌋

/-- The quotient `(total - idleDelta) * 10000 / total`. -/
def quotient (current previous : Snapshot) : ℚ :=
  (total current previous - idleDelta current previous) * 10000 / total current previous

/-- The value `round((total - idleDelta) * 10000 / total) / 100`, in exact arithmetic. -/
def utilization (current previous : Snapshot) : ℚ :=
  (roundHalfUp (quotient current previous) : ℚ) / 100

/-- The same value with the two roundings of double arithmetic: the quotient is rounded to
a double before `round`, and the division by 100 is rounded to a double. -/
def utilizationDouble (current previous : Snapshot) : JSNum :=
  JSNum.ofRat ((roundHalfUp (Double.round (quotient current previous)) : ℚ) / 100)

/-- The sum over the keys `k` of `|current[k] - previous[k]|`. -/
def absTotal (current previous : Snapshot) : ℚ :=
  ∑ k in current.keys.toFinset, |counter current k - counter previous k|

end Spec

/-! ## Sample data -/

/-- The previous snapshot of the worked example: `user` 100, `idle` 200, the rest 0. -/
def examplePrevious : Snapshot :=
  [("user", 100), ("nice", 0), ("system", 0), ("idle", 200), ("iowait", 0), ("irq", 0),
   ("softirq", 0), ("steal", 0), ("guest", 0)]

/-- The current snapshot of the worked example: `user` 150, `idle` 240, the rest 0. -/
def exampleCurrent : Snapshot :=
  [("user", 150), ("nice", 0), ("system", 0), ("idle", 240), ("iowait", 0), ("irq", 0),
   ("softirq", 0), ("steal", 0), ("guest", 0)]

/-- A snapshot with all counters zero. -/
def zeroSnapshot : Snapshot := [("user", 0), ("idle", 0)]

/-- A snapshot whose quotient against `zeroSnapshot` lies just below 9998.5. -/
def nearTieCurrent : Snapshot := [("user", 799880013331), ("idle", 120000002)]

/-- A snapshot whose counters add up to `2 ^ 1024`. -/
def hugeCurrent : Snapshot := [("user", 2 ^ 1023), ("idle", 2 ^ 1023)]

/-! ## Vocabulary of the statements -/

/-- The number is a percentage: finite and in the closed interval from 0 to 100. -/
def JSNum.IsPercentage (x : JSNum) : Prop := ∃ q : ℚ, x = JSNum.fin q ∧ 0 ≤ q ∧ q ≤ 100

/-- Every counter of the snapshot is an integer below `2 ^ 53` in magnitude. -/
def Snapshot.IntCounters (o : Snapshot) : Prop :=
  ∀ kv ∈ o, ∃ n : ℤ, kv.2 = (n : ℚ) ∧ |n| < 2 ^ 53

/-- Every counter of the snapshot is a non-negative integer. -/
def Snapshot.NatCounters (o : Snapshot) : Prop := ∀ kv ∈ o, ∃ n : ℕ, kv.2 = (n : ℚ)

/-- One sampling round per response: the timer fires, then the request completes with that
response. -/
def rounds (responses : List Snapshot) : List Event :=
  responses.flatMap (fun r => [Event.tick, Event.success r])

/-- The samples a sequence of responses produces once `first` is the stored snapshot: each
response against the one before it. -/
def samples (first : Snapshot) (responses : List Snapshot) : List JSNum :=
  List.zipWith getCPUPrecent responses (first :: responses)

/-- The activation events: the view calls `show` or `startGetCPUTimes`. -/
def Event.isActivation : Event → Bool
  | Event.show => true
  | Event.startGetCPUTimes => true
  | _ => false

/-- The successful completions. -/
def Event.isSuccess : Event → Bool
  | Event.success _ => true
  | _ => false

/-- The bookkeeping that ties the transport to the guard: a request is outstanding exactly
when `cpu.aborter` is set, and then there is one. -/
def Guarded (s : State) : Prop := s.inflight = if s.aborter.isSome then 1 else 0

/-- The sampler after `show`, one round that stored `examplePrevious`, and one more tick:
the timer runs and a request is outstanding. -/
def pendingState : State :=
  run initState [Event.show, Event.tick, Event.success examplePrevious, Event.tick]

/-- The sampler after `show`, one round that stored `examplePrevious`, `distory`, and `show`
again: just re-activated, no request outstanding. -/
def reactivatedState : State :=
  run initState [Event.show, Event.tick, Event.success examplePrevious, Event.distory, Event.show]

/-! ## Rounding: basic facts -/

theorem Double.rne_intCast (n : ℤ) : Double.rne (n : ℚ) = n := by
  simp [Double.rne]

theorem Double.rne_le_of_le (y : ℚ) (n : ℤ) (h : y ≤ n) : Double.rne y ≤ n := by
  have hf : ⌊y⌋ ≤ n := Int.floor_le_iff.mpr (by linarith [Int.lt_floor_add_one y, show ((n:ℚ)) < n + 1 by linarith] ) |> fun h => h
  unfold Double.rne
  have hcase : ∀ (hpos : ¬ (y - ⌊y⌋ < 1 / 2)), ⌊y⌋ + 1 ≤ n := by
    intro hpos
    have h1 : (⌊y⌋ : ℚ) < n := by
      have := Int.floor_le y
      linarith
    have : ⌊y⌋ < n := by exact_mod_cast h1
    omega
  split_ifs with h1 h2 h3
  · exact hf
  · exact hcase h1
  · exact hf
  · exact hcase h1

theorem Double.le_rne_of_le (y : ℚ) (n : ℤ) (h : (n : ℚ) ≤ y) : n ≤ Double.rne y := by
  have hf : n ≤ ⌊y⌋ := Int.le_floor.mpr h
  unfold Double.rne
  split_ifs <;> omega

theorem Double.rne_eq_of_near (y : ℚ) (m : ℤ) (h : |y - m| < 1 / 2) : Double.rne y = m := by
  rw [abs_lt] at h
  obtain ⟨h1, h2⟩ := h
  by_cases hm : (m : ℚ) ≤ y
  · have hf : ⌊y⌋ = m := by
      rw [Int.floor_eq_iff]
      constructor <;> linarith
    unfold Double.rne
    rw [hf, if_pos (by linarith)]
  · push_neg at hm
    have hf : ⌊y⌋ = m - 1 := by
      rw [Int.floor_eq_iff]
      push_cast
      constructor <;> linarith
    unfold Double.rne
    rw [hf]
    push_cast
    rw [if_neg (by linarith), if_pos (by linarith)]
    ring

theorem Double.log_eq (x : ℚ) (e : ℤ) (hlo : (2 : ℚ) ^ e ≤ x) (hhi : x < (2 : ℚ) ^ (e + 1)) :
    Int.log 2 x = e := by
  have hx : 0 < x := lt_of_lt_of_le (by positivity) hlo
  have h1 : e ≤ Int.log 2 x := by
    rw [← Int.zpow_le_iff_le_log (by norm_num) hx]
    simpa using hlo
  have h2 : Int.log 2 x < e + 1 := by
    rw [← Int.lt_zpow_iff_log_lt (by norm_num) hx]
    simpa using hhi
  omega

theorem Double.ulp_pos (x : ℚ) : 0 < Double.ulp x := by
  unfold Double.ulp
  positivity

theorem Double.ulp_neg (x : ℚ) : Double.ulp (-x) = Double.ulp x := by
  simp [Double.ulp, Double.exponent]

theorem Double.round_zero : Double.round 0 = 0 := by
  simp [Double.round, Double.rne]

theorem Double.round_neg (x : ℚ) : Double.round (-x) = -Double.round x := by
  rcases lt_trichotomy x 0 with h | h | h
  · have h1 : (0 : ℚ) ≤ -x := by linarith
    have h2 : ¬ (0 : ℚ) ≤ x := by linarith
    simp only [Double.round, Double.ulp_neg, if_pos h1, if_neg h2, neg_neg]
  · subst h
    simp [Double.round_zero]
  · have h1 : ¬ (0 : ℚ) ≤ -x := by linarith
    have h2 : (0 : ℚ) ≤ x := by linarith
    simp only [Double.round, Double.ulp_neg, if_neg h1, if_pos h2, neg_neg]

theorem Double.round_nonneg (x : ℚ) (hx : 0 ≤ x) : 0 ≤ Double.round x := by
  rw [Double.round, if_pos hx]
  have h0 : (0 : ℤ) ≤ Double.rne (x / Double.ulp x) :=
    Double.le_rne_of_le _ 0 (by simpa using div_nonneg hx (Double.ulp_pos x).le)
  have : (0 : ℚ) ≤ (Double.rne (x / Double.ulp x) : ℚ) := by exact_mod_cast h0
  exact mul_nonneg this (Double.ulp_pos x).le

/-- A value whose quotient by the spacing of its binade is an integer is a double. -/
theorem Double.round_eq_self (x : ℚ) (n : ℤ) (h : |x| / Double.ulp x = n) :
    Double.round x = x := by
  have hu := Double.ulp_pos x
  have key : ∀ y : ℚ, 0 ≤ y → ∀ k : ℤ, y / Double.ulp y = k → Double.round y = y := by
    intro y hy k hk
    rw [Double.round, if_pos hy, hk, Double.rne_intCast, ← hk]
    field_simp [(Double.ulp_pos y).ne.symm]
  by_cases hx : 0 ≤ x
  · rw [abs_of_nonneg hx] at h
    exact key x hx n h
  · push_neg at hx
    rw [abs_of_neg hx] at h
    have := key (-x) (by linarith) n (by rw [Double.ulp_neg]; exact h)
    rw [Double.round_neg] at this
    linarith

/-- The exponent of a non-zero `m * 2 ^ k`, with `m` of at most 53 bits, is at most `k + 52`. -/
theorem Double.exponent_le (x : ℚ) (k : ℤ) (hk : -1074 ≤ k) (h0 : x ≠ 0)
    (hx : |x| < (2 : ℚ) ^ (k + 53)) :
    Double.exponent x ≤ k + 52 := by
  unfold Double.exponent
  apply max_le _ (by omega)
  have hpos : 0 < |x| := abs_pos.mpr h0
  have : Int.log 2 |x| < k + 53 := by
    rw [← Int.lt_zpow_iff_log_lt (by norm_num) hpos]
    simpa using hx
  omega

theorem Double.exponent_mono (x y : ℚ) (hx : 0 < |x|) (h : |x| ≤ |y|) :
    Double.exponent x ≤ Double.exponent y := by
  unfold Double.exponent
  exact max_le_max (Int.log_mono_right hx h) le_rfl

/-- The quotient of `m * 2 ^ k` by a spacing `2 ^ (b - 52)` with `b ≤ k + 52` is an integer. -/
theorem Double.div_zpow_int (m : ℤ) (k b : ℤ) (hb : b ≤ k + 52) :
    ∃ n : ℤ, (m : ℚ) * (2 : ℚ) ^ k / (2 : ℚ) ^ (b - 52) = n := by
  obtain ⟨j, hj⟩ : ∃ j : ℕ, k - (b - 52) = j := ⟨(k - (b - 52)).toNat, by omega⟩
  refine ⟨m * 2 ^ j, ?_⟩
  have h2 : (2 : ℚ) ≠ 0 := by norm_num
  rw [mul_div_assoc, ← zpow_sub₀ h2, hj]
  push_cast
  rw [zpow_natCast]

/-- A value `m * 2 ^ k` with `|m| ≤ 2 ^ 53` and `k` not below the subnormal spacing is a
double: rounding leaves it as it is. -/
theorem Double.round_int_mul_zpow (m : ℤ) (k : ℤ) (hk : -1074 ≤ k) (hm : |m| < 2 ^ 53) :
    Double.round ((m : ℚ) * (2 : ℚ) ^ k) = (m : ℚ) * (2 : ℚ) ^ k := by
  by_cases hm0 : m = 0
  · subst hm0
    simp [Double.round_zero]
  have hpow : (0 : ℚ) < (2 : ℚ) ^ k := by positivity
  have habs : |(m : ℚ) * (2 : ℚ) ^ k| = ((|m| : ℤ) : ℚ) * (2 : ℚ) ^ k := by
    rw [abs_mul, abs_of_pos hpow, Int.cast_abs]
  have hlt : |(m : ℚ) * (2 : ℚ) ^ k| < (2 : ℚ) ^ (k + 53) := by
    rw [habs, zpow_add₀ (by norm_num : (2 : ℚ) ≠ 0), mul_comm ((2 : ℚ) ^ k)]
    apply mul_lt_mul_of_pos_right _ hpow
    have : ((|m| : ℤ) : ℚ) < (2 : ℚ) ^ (53 : ℕ) := by exact_mod_cast hm
    rw [zpow_ofNat]
    exact this
  have hne : (m : ℚ) * (2 : ℚ) ^ k ≠ 0 :=
    mul_ne_zero (by exact_mod_cast hm0) hpow.ne.symm
  have hexp := Double.exponent_le _ k hk hne hlt
  obtain ⟨n, hn⟩ := Double.div_zpow_int |m| k (Double.exponent ((m : ℚ) * (2 : ℚ) ^ k)) hexp
  apply Double.round_eq_self _ n
  rw [habs]
  exact hn

/-- An integer of at most 53 bits is a double. -/
theorem Double.round_intCast (n : ℤ) (hn : |n| < 2 ^ 53) : Double.round (n : ℚ) = n := by
  have := Double.round_int_mul_zpow n 0 (by norm_num) hn
  simpa using this

/-- Rounding does not cross a double: a non-negative `x` at most the double `m * 2 ^ k` rounds
to at most that double. -/
theorem Double.round_le (x : ℚ) (m k : ℤ) (hk : -1074 ≤ k) (hm : |m| < 2 ^ 53) (hx : 0 ≤ x)
    (hxB : x ≤ (m : ℚ) * (2 : ℚ) ^ k) : Double.round x ≤ (m : ℚ) * (2 : ℚ) ^ k := by
  rcases hx.eq_or_lt with h0 | hpos
  · rw [← h0, Double.round_zero]
    rw [← h0] at hxB
    exact hxB
  have hpow : (0 : ℚ) < (2 : ℚ) ^ k := by positivity
  have hBpos : 0 < (m : ℚ) * (2 : ℚ) ^ k := lt_of_lt_of_le hpos hxB
  have hlt : |(m : ℚ) * (2 : ℚ) ^ k| < (2 : ℚ) ^ (k + 53) := by
    rw [abs_mul, abs_of_pos hpow, zpow_add₀ (by norm_num : (2 : ℚ) ≠ 0),
      mul_comm ((2 : ℚ) ^ k)]
    apply mul_lt_mul_of_pos_right _ hpow
    have : ((|m| : ℤ) : ℚ) < (2 : ℚ) ^ (53 : ℕ) := by exact_mod_cast hm
    rw [zpow_ofNat, ← Int.cast_abs]
    exact this
  have hexpB := Double.exponent_le _ k hk hBpos.ne.symm hlt
  have hexp : Double.exponent x ≤ k + 52 :=
    le_trans (Double.exponent_mono x _ (abs_pos.mpr hpos.ne.symm)
      (by rw [abs_of_pos hpos, abs_of_pos hBpos]; exact hxB)) hexpB
  obtain ⟨n, hn⟩ := Double.div_zpow_int m k (Double.exponent x) hexp
  have hu := Double.ulp_pos x
  have hdiv : x / Double.ulp x ≤ n := by
    rw [← hn]
    exact div_le_div_of_nonneg_right hxB hu.le
  have hr := Double.rne_le_of_le _ n hdiv
  rw [Double.round, if_pos hx]
  have hr2 : (Double.rne (x / Double.ulp x) : ℚ) ≤ (n : ℚ) := by exact_mod_cast hr
  calc (Double.rne (x / Double.ulp x) : ℚ) * Double.ulp x
      ≤ (n : ℚ) * Double.ulp x := mul_le_mul_of_nonneg_right hr2 hu.le
    _ = (m : ℚ) * (2 : ℚ) ^ k := by
        rw [← hn]
        unfold Double.ulp
        field_simp

/-- Rounding a value of magnitude at most a natural number below `2 ^ 53` keeps it there. -/
theorem Double.abs_round_le (x : ℚ) (B : ℕ) (hB : B < 2 ^ 53) (hx : |x| ≤ B) :
    |Double.round x| ≤ B := by
  have hBi : |(B : ℤ)| < 2 ^ 53 := by
    rw [abs_of_nonneg (by positivity)]
    exact_mod_cast hB
  by_cases h : 0 ≤ x
  · rw [abs_of_nonneg h] at hx
    rw [abs_of_nonneg (Double.round_nonneg x h)]
    have := Double.round_le x B 0 (by norm_num) hBi h (by simpa using hx)
    simpa using this
  · push_neg at h
    rw [abs_of_neg h] at hx
    have hnn : 0 ≤ Double.round (-x) := Double.round_nonneg (-x) (by linarith)
    have := Double.round_le (-x) B 0 (by norm_num) hBi (by linarith) (by simpa using hx)
    rw [Double.round_neg] at this hnn
    rw [abs_of_nonpos (by linarith)]
    simpa using this

/-- Evaluation of a rounding from its binade and its nearest multiple. -/
theorem Double.round_eq (x : ℚ) (e m : ℤ) (he : -1022 ≤ e) (hlo : (2 : ℚ) ^ e ≤ x)
    (hhi : x < (2 : ℚ) ^ (e + 1)) (hm : |x / (2 : ℚ) ^ (e - 52) - m| < 1 / 2) :
    Double.round x = (m : ℚ) * (2 : ℚ) ^ (e - 52) := by
  have hx : 0 < x := lt_of_lt_of_le (by positivity) hlo
  have hexp : Double.exponent x = e := by
    unfold Double.exponent
    rw [abs_of_pos hx, Double.log_eq x e hlo hhi]
    exact max_eq_left he
  rw [Double.round, if_pos hx.le, Double.ulp, hexp, Double.rne_eq_of_near _ m hm]

/-! ## Arithmetic on numbers -/

theorem JSNum.ofRat_of_abs_lt (x : ℚ) (h : |Double.round x| < (2 : ℚ) ^ 1024) :
    JSNum.ofRat x = JSNum.fin (Double.round x) := by
  rw [abs_lt] at h
  unfold JSNum.ofRat
  rw [if_neg (by linarith [h.2]), if_neg (by linarith [h.1])]

/-- An integer of at most 53 bits is read, added, subtracted or multiplied without rounding. -/
theorem JSNum.ofRat_int (q : ℚ) (n : ℤ) (hq : q = n) (hb : |q| < (2 : ℚ) ^ 53) :
    JSNum.ofRat q = JSNum.fin q := by
  have hn : |n| < 2 ^ 53 := by
    rw [hq, ← Int.cast_abs] at hb
    exact_mod_cast hb
  have hr : Double.round q = q := by
    rw [hq]
    exact Double.round_intCast n hn
  rw [JSNum.ofRat_of_abs_lt q (by rw [hr]; exact lt_trans hb (by norm_num)), hr]

theorem JSNum.ofRat_zero : JSNum.ofRat 0 = JSNum.fin 0 :=
  JSNum.ofRat_int 0 0 (by simp) (by norm_num)

theorem JSNum.fin_add_fin (a b : ℚ) : JSNum.fin a + JSNum.fin b = JSNum.ofRat (a + b) := rfl

theorem JSNum.fin_sub_fin (a b : ℚ) : JSNum.fin a - JSNum.fin b = JSNum.ofRat (a - b) := by
  show JSNum.add (JSNum.fin a) (JSNum.neg (JSNum.fin b)) = _
  simp [JSNum.add, JSNum.neg, sub_eq_add_neg]

theorem JSNum.fin_mul_fin (a b : ℚ) : JSNum.fin a * JSNum.fin b = JSNum.ofRat (a * b) := rfl

theorem JSNum.fin_div_fin (a b : ℚ) (hb : b ≠ 0) :
    JSNum.fin a / JSNum.fin b = JSNum.ofRat (a / b) := by
  show JSNum.div (JSNum.fin a) (JSNum.fin b) = _
  simp [JSNum.div, hb]

theorem JSNum.zero_div_zero : JSNum.fin 0 / JSNum.fin 0 = JSNum.nan := by
  show JSNum.div (JSNum.fin 0) (JSNum.fin 0) = _
  simp [JSNum.div]

theorem JSNum.round_fin (a : ℚ) :
    JSNum.round (JSNum.fin a) = JSNum.fin ((⌊a + 1 / 2⌋ : ℤ) : ℚ) := rfl

theorem JSNum.round_nan : JSNum.round JSNum.nan = JSNum.nan := rfl

theorem JSNum.nan_div (x : JSNum) : JSNum.nan / x = JSNum.nan := by
  show JSNum.div JSNum.nan x = _
  cases x <;> rfl

/-! ## Reading counters -/

theorem Snapshot.lookup_mem (o : Snapshot) (k : String) (v : ℚ) (h : o.lookup k = some v) :
    (k, v) ∈ o := by
  induction o with
  | nil => simp at h
  | cons kv o ih =>
    obtain ⟨k', v'⟩ := kv
    rw [List.lookup_cons] at h
    by_cases hk : k = k'
    · subst hk
      simp at h
      subst h
      exact List.mem_cons_self _ _
    · have : (k == k') = false := by simpa using hk
      rw [this] at h
      exact List.mem_cons_of_mem _ (ih h)

theorem Snapshot.lookup_of_mem_keys (o : Snapshot) (k : String) (hk : k ∈ o.keys) :
    ∃ v, o.lookup k = some v := by
  cases h : o.lookup k with
  | some v => exact ⟨v, rfl⟩
  | none =>
    exfalso
    rw [List.lookup_eq_none_iff] at h
    simp only [Snapshot.keys, List.mem_map] at hk
    obtain ⟨kv, hmem, rfl⟩ := hk
    simpa using h kv hmem

/-- A counter that is present and is an integer of at most 53 bits is read exactly. -/
theorem Snapshot.get_of_mem_keys (o : Snapshot) (k : String) (hk : k ∈ o.keys)
    (hint : o.IntCounters) :
    o.get k = JSNum.fin (Spec.counter o k)
      ∧ ∃ n : ℤ, Spec.counter o k = (n : ℚ) ∧ |n| < 2 ^ 53 := by
  obtain ⟨v, hv⟩ := Snapshot.lookup_of_mem_keys o k hk
  obtain ⟨n, hn, hb⟩ := hint (k, v) (Snapshot.lookup_mem o k v hv)
  simp only at hn
  have hc : Spec.counter o k = v := by simp [Spec.counter, hv]
  refine ⟨?_, n, hc.trans hn, hb⟩
  unfold Snapshot.get
  rw [hv, hc]
  simp only
  apply JSNum.ofRat_int v n hn
  rw [hn, ← Int.cast_abs]
  exact_mod_cast hb

/-! ## The loop of the delta calculator -/

theorem abs_sum_map_le (ks : List String) (f : String → ℚ) :
    |(ks.map f).sum| ≤ (ks.map (fun k => |f k|)).sum := by
  induction ks with
  | nil => simp
  | cons k ks ih =>
    simp only [List.map_cons, List.sum_cons]
    exact le_trans (abs_add _ _) (add_le_add le_rfl ih)

theorem sum_map_abs_nonneg (ks : List String) (f : String → ℚ) :
    0 ≤ (ks.map (fun k => |f k|)).sum := by
  apply List.sum_nonneg
  intro x hx
  simp only [List.mem_map] at hx
  obtain ⟨k, _, rfl⟩ := hx
  exact abs_nonneg _

theorem abs_le_sum_map_abs (ks : List String) (f : String → ℚ) (k0 : String)
    (h : k0 ∈ ks) : |f k0| ≤ (ks.map (fun k => |f k|)).sum := by
  apply List.single_le_sum
  · intro x hx
    simp only [List.mem_map] at hx
    obtain ⟨k, _, rfl⟩ := hx
    exact abs_nonneg _
  · exact List.mem_map.mpr ⟨k0, h, rfl⟩

/-- Taking one term out of a sum leaves at most the sum of the magnitudes. -/
theorem abs_sum_sub_le (ks : List String) (f : String → ℚ) (k0 : String) (h : k0 ∈ ks) :
    |(ks.map f).sum - f k0| ≤ (ks.map (fun k => |f k|)).sum := by
  induction ks with
  | nil => simp at h
  | cons k ks ih =>
    simp only [List.map_cons, List.sum_cons]
    rcases List.mem_cons.mp h with rfl | hmem
    · have := abs_sum_map_le ks f
      have h2 := abs_nonneg (f k0)
      rw [add_sub_cancel_left]
      linarith
    · have := ih hmem
      calc |f k + (List.map f ks).sum - f k0|
          = |f k + ((List.map f ks).sum - f k0)| := by ring_nf
        _ ≤ |f k| + |(List.map f ks).sum - f k0| := abs_add _ _
        _ ≤ |f k| + (ks.map (fun k => |f k|)).sum := add_le_add le_rfl this

/-- The loop of `getCPUPrecent` over keys present in both objects adds up without rounding
as long as the running magnitudes stay below `2 ^ 53`. -/
theorem totle_loop (c p : Snapshot) (hic : c.IntCounters) (hip : p.IntCounters)
    (ks : List String) (hc : ∀ k ∈ ks, k ∈ c.keys) (hp : ∀ k ∈ ks, k ∈ p.keys)
    (acc : ℚ) (n0 : ℤ) (hacc : acc = n0)
    (hb : |acc| + (ks.map (fun k => |Spec.counter c k - Spec.counter p k|)).sum
      < (2 : ℚ) ^ 53) :
    ks.foldl (fun totle key => totle + (c.get key - p.get key)) (JSNum.fin acc)
        = JSNum.fin (acc + (ks.map (fun k => Spec.counter c k - Spec.counter p k)).sum)
      ∧ ∃ n : ℤ, acc + (ks.map (fun k => Spec.counter c k - Spec.counter p k)).sum = n := by
  induction ks generalizing acc n0 with
  | nil => exact ⟨by simp, n0, by simpa using hacc⟩
  | cons k ks ih =>
    obtain ⟨hgc, nc, hnc, -⟩ := Snapshot.get_of_mem_keys c k (hc k (List.mem_cons_self _ _)) hic
    obtain ⟨hgp, np, hnp, -⟩ := Snapshot.get_of_mem_keys p k (hp k (List.mem_cons_self _ _)) hip
    simp only [List.foldl_cons, List.map_cons, List.sum_cons] at hb ⊢
    have hrest := sum_map_abs_nonneg ks (fun k => Spec.counter c k - Spec.counter p k)
    have hd : c.get k - p.get k = JSNum.fin (Spec.counter c k - Spec.counter p k) := by
      rw [hgc, hgp, JSNum.fin_sub_fin]
      apply JSNum.ofRat_int _ (nc - np) (by rw [hnc, hnp]; push_cast; ring)
      linarith [abs_nonneg acc]
    have hsum : JSNum.fin acc + JSNum.fin (Spec.counter c k - Spec.counter p k)
        = JSNum.fin (acc + (Spec.counter c k - Spec.counter p k)) := by
      rw [JSNum.fin_add_fin]
      apply JSNum.ofRat_int _ (n0 + (nc - np)) (by rw [hacc, hnc, hnp]; push_cast; ring)
      linarith [abs_add acc (Spec.counter c k - Spec.counter p k)]
    rw [hd, hsum]
    obtain ⟨h1, n, hn⟩ := ih (fun x hx => hc x (List.mem_cons_of_mem _ hx))
      (fun x hx => hp x (List.mem_cons_of_mem _ hx))
      (acc + (Spec.counter c k - Spec.counter p k)) (n0 + (nc - np))
      (by rw [hacc, hnc, hnp]; push_cast; ring)
      (by linarith [abs_add acc (Spec.counter c k - Spec.counter p k)])
    rw [h1]
    exact ⟨by rw [add_assoc], n, by rw [← hn, add_assoc]⟩

/-- The loop and the idle difference of `getCPUPrecent`, on integer counters over one key
set that contains `idle`, with the magnitudes of the differences adding up to less than
`2 ^ 53`: both are computed without rounding. -/
theorem totle_idle_exact (c p : Snapshot) (hkeys : ∀ k, k ∈ c.keys ↔ k ∈ p.keys)
    (hidle : "idle" ∈ c.keys) (hic : c.IntCounters) (hip : p.IntCounters)
    (hb : (c.keys.map (fun k => |Spec.counter c k - Spec.counter p k|)).sum < (2 : ℚ) ^ 53) :
    c.keys.foldl (fun totle key => totle + (c.get key - p.get key)) (JSNum.fin 0)
        = JSNum.fin ((c.keys.map (fun k => Spec.counter c k - Spec.counter p k)).sum)
      ∧ c.get "idle" - p.get "idle"
        = JSNum.fin (Spec.counter c "idle" - Spec.counter p "idle")
      ∧ (∃ n : ℤ, (c.keys.map (fun k => Spec.counter c k - Spec.counter p k)).sum = n)
      ∧ ∃ n : ℤ, Spec.counter c "idle" - Spec.counter p "idle" = n := by
  obtain ⟨h1, n, hn⟩ := totle_loop c p hic hip c.keys (fun _ h => h)
    (fun k h => (hkeys k).1 h) 0 0 (by simp) (by simpa using hb)
  simp only [zero_add] at h1 hn
  obtain ⟨hgc, nc, hnc, -⟩ := Snapshot.get_of_mem_keys c "idle" hidle hic
  obtain ⟨hgp, np, hnp, -⟩ := Snapshot.get_of_mem_keys p "idle" ((hkeys _).1 hidle) hip
  refine ⟨h1, ?_, ⟨n, hn⟩, ⟨nc - np, by rw [hnc, hnp]; push_cast; ring⟩⟩
  rw [hgc, hgp, JSNum.fin_sub_fin]
  apply JSNum.ofRat_int _ (nc - np) (by rw [hnc, hnp]; push_cast; ring)
  exact lt_of_le_of_lt
    (abs_le_sum_map_abs c.keys (fun k => Spec.counter c k - Spec.counter p k) "idle" hidle) hb

/-- The magnitude of a rounded value whose magnitude is below `2 ^ 53`. -/
theorem Double.abs_round_lt (x : ℚ) (hx : |x| ≤ (2 : ℚ) ^ 53 - 1) :
    |Double.round x| ≤ (2 : ℚ) ^ 53 - 1 := by
  have := Double.abs_round_le x (2 ^ 53 - 1) (by norm_num) (by push_cast; linarith)
  push_cast at this
  linarith

/-- An integer of magnitude below `2 ^ 53` has magnitude at most `2 ^ 53 - 1`. -/
theorem abs_le_of_int_lt (a : ℚ) (n : ℤ) (ha : a = n) (hb : |a| < (2 : ℚ) ^ 53) :
    |a| ≤ (2 : ℚ) ^ 53 - 1 := by
  have h1 : |n| < 2 ^ 53 := by
    rw [ha, ← Int.cast_abs] at hb
    exact_mod_cast hb
  have h2 : |n| ≤ 2 ^ 53 - 1 := by omega
  rw [ha, ← Int.cast_abs]
  exact_mod_cast h2

/-- The last three operations of `getCPUPrecent` on an integer dividend `a` of magnitude
below `2 ^ 53` and a non-zero integer divisor `t`: two roundings to a double, no overflow. -/
theorem round_div_exact (a t : ℚ) (na nt : ℤ) (ha : a = na) (ht : t = nt) (ht0 : t ≠ 0)
    (hb : |a| < (2 : ℚ) ^ 53) :
    JSNum.round (JSNum.fin a / JSNum.fin t) / JSNum.fin 100
        = JSNum.ofRat (((⌊Double.round (a / t) + 1 / 2⌋ : ℤ) : ℚ) / 100)
      ∧ JSNum.ofRat (((⌊Double.round (a / t) + 1 / 2⌋ : ℤ) : ℚ) / 100)
        = JSNum.fin (Double.round (((⌊Double.round (a / t) + 1 / 2⌋ : ℤ) : ℚ) / 100)) := by
  have hnt0 : nt ≠ 0 := by
    intro h
    apply ht0
    rw [ht, h]
    simp
  have ht1 : (1 : ℚ) ≤ |t| := by
    have : (1 : ℤ) ≤ |nt| := Int.one_le_abs hnt0
    rw [ht, ← Int.cast_abs]
    exact_mod_cast this
  have hq : |a / t| ≤ (2 : ℚ) ^ 53 - 1 := by
    rw [abs_div]
    calc |a| / |t| ≤ |a| / 1 := div_le_div_of_nonneg_left (abs_nonneg a) (by norm_num) ht1
      _ = |a| := div_one _
      _ ≤ (2 : ℚ) ^ 53 - 1 := abs_le_of_int_lt a na ha hb
  have hr := Double.abs_round_lt (a / t) hq
  have hN : |((⌊Double.round (a / t) + 1 / 2⌋ : ℤ) : ℚ)| ≤ (2 : ℚ) ^ 53 := by
    have h1 := Int.floor_le (Double.round (a / t) + 1 / 2)
    have h2 := Int.lt_floor_add_one (Double.round (a / t) + 1 / 2)
    have h3 := abs_le.mp hr
    rw [abs_le]
    constructor <;> linarith [h3.1, h3.2]
  have hN2 : |((⌊Double.round (a / t) + 1 / 2⌋ : ℤ) : ℚ) / 100| ≤ (2 : ℚ) ^ 53 - 1 := by
    rw [abs_div, abs_of_pos (by norm_num : (0 : ℚ) < 100), div_le_iff₀ (by norm_num)]
    have : (2 : ℚ) ^ 53 ≤ ((2 : ℚ) ^ 53 - 1) * 100 := by norm_num
    linarith
  constructor
  · rw [JSNum.fin_div_fin _ _ ht0,
      JSNum.ofRat_of_abs_lt _ (lt_of_le_of_lt hr (by norm_num)), JSNum.round_fin,
      JSNum.fin_div_fin _ _ (by norm_num)]
  · exact JSNum.ofRat_of_abs_lt _ (lt_of_le_of_lt (Double.abs_round_lt _ hN2) (by norm_num))

/-- On integer counters over one key set that contains `idle`, with 10000 times the sum of
the magnitudes of the differences below `2 ^ 53` and a non-zero total, the only roundings in
`getCPUPrecent` are those of the two divisions, and the result is finite. -/
theorem getCPUPrecent_exact (c p : Snapshot) (hkeys : ∀ k, k ∈ c.keys ↔ k ∈ p.keys)
    (hidle : "idle" ∈ c.keys) (hic : c.IntCounters) (hip : p.IntCounters)
    (hb : 10000 * (c.keys.map (fun k => |Spec.counter c k - Spec.counter p k|)).sum
      < (2 : ℚ) ^ 53)
    (ht : (c.keys.map (fun k => Spec.counter c k - Spec.counter p k)).sum ≠ 0) :
    getCPUPrecent c p = JSNum.ofRat (((⌊Double.round
        (((c.keys.map (fun k => Spec.counter c k - Spec.counter p k)).sum
            - (Spec.counter c "idle" - Spec.counter p "idle")) * 10000
          / (c.keys.map (fun k => Spec.counter c k - Spec.counter p k)).sum) + 1 / 2⌋ : ℤ) : ℚ)
        / 100)
      ∧ JSNum.ofRat (((⌊Double.round
        (((c.keys.map (fun k => Spec.counter c k - Spec.counter p k)).sum
            - (Spec.counter c "idle" - Spec.counter p "idle")) * 10000
          / (c.keys.map (fun k => Spec.counter c k - Spec.counter p k)).sum) + 1 / 2⌋ : ℤ) : ℚ)
        / 100)
        = JSNum.fin (Double.round (((⌊Double.round
        (((c.keys.map (fun k => Spec.counter c k - Spec.counter p k)).sum
            - (Spec.counter c "idle" - Spec.counter p "idle")) * 10000
          / (c.keys.map (fun k => Spec.counter c k - Spec.counter p k)).sum) + 1 / 2⌋ : ℤ) : ℚ)
        / 100)) := by
  have hA := sum_map_abs_nonneg c.keys (fun k => Spec.counter c k - Spec.counter p k)
  obtain ⟨h1, h2, ⟨nT, hnT⟩, ⟨nd, hnd⟩⟩ :=
    totle_idle_exact c p hkeys hidle hic hip (by linarith)
  have hsub := abs_sum_sub_le c.keys (fun k => Spec.counter c k - Spec.counter p k) "idle" hidle
  simp only at hsub
  have key := round_div_exact _ _ ((nT - nd) * 10000) nT
    (show ((c.keys.map (fun k => Spec.counter c k - Spec.counter p k)).sum
        - (Spec.counter c "idle" - Spec.counter p "idle")) * 10000
      = (((nT - nd) * 10000 : ℤ) : ℚ) by rw [hnT, hnd]; push_cast; ring) hnT ht
    (by rw [abs_mul, abs_of_pos (by norm_num : (0 : ℚ) < 10000)]; linarith)
  refine ⟨?_, key.2⟩
  unfold getCPUPrecent
  simp only []
  rw [h1, h2, JSNum.fin_sub_fin,
    JSNum.ofRat_int _ (nT - nd) (by rw [hnT, hnd]; push_cast; ring) (by linarith),
    JSNum.fin_mul_fin,
    JSNum.ofRat_int _ ((nT - nd) * 10000) (by rw [hnT, hnd]; push_cast; ring)
      (by rw [abs_mul, abs_of_pos (by norm_num : (0 : ℚ) < 10000)]; linarith)]
  exact key.1

/-! ## Concrete roundings -/

theorem Double.round_example_quotient :
    Double.round (500000 / 90) = 6108397932088889 * (2 : ℚ) ^ (-40 : ℤ) := by
  have h := Double.round_eq (500000 / 90) 12 6108397932088889 (by norm_num) (by norm_num)
    (by norm_num) (by rw [abs_lt]; constructor <;> norm_num)
  rw [h]
  norm_num

theorem Double.round_55_56 :
    Double.round (5556 / 100) = 7819374853022024 * (2 : ℚ) ^ (-47 : ℤ) := by
  have h := Double.round_eq (5556 / 100) 5 7819374853022024 (by norm_num) (by norm_num)
    (by norm_num) (by rw [abs_lt]; constructor <;> norm_num)
  rw [h]
  norm_num

theorem Double.round_near_tie_quotient :
    Double.round (7998800133310000 / 800000013333) = 19997 / 2 := by
  have h := Double.round_eq (7998800133310000 / 800000013333) 13 5496733505159168
    (by norm_num) (by norm_num) (by norm_num) (by rw [abs_lt]; constructor <;> norm_num)
  rw [h]
  norm_num

theorem Double.round_99_99 :
    Double.round (9999 / 100) = 7036170730324623 * (2 : ℚ) ^ (-46 : ℤ) := by
  have h := Double.round_eq (9999 / 100) 6 7036170730324623 (by norm_num) (by norm_num)
    (by norm_num) (by rw [abs_lt]; constructor <;> norm_num)
  rw [h]
  norm_num

theorem Double.round_99_98 :
    Double.round (9998 / 100) = 7035467042882847 * (2 : ℚ) ^ (-46 : ℤ) := by
  have h := Double.round_eq (9998 / 100) 6 7035467042882847 (by norm_num) (by norm_num)
    (by norm_num) (by rw [abs_lt]; constructor <;> norm_num)
  rw [h]
  norm_num

/-! ## Concrete snapshots -/

/-- The specification total over a well-formed snapshot is the list sum the loop computes. -/
theorem Spec.total_eq_sum (c p : Snapshot) (hwf : c.WellFormed) :
    Spec.total c p = (c.keys.map (fun k => Spec.counter c k - Spec.counter p k)).sum := by
  unfold Spec.total
  exact List.sum_toFinset _ hwf

theorem Spec.absTotal_eq_sum (c p : Snapshot) (hwf : c.WellFormed) :
    Spec.absTotal c p
      = (c.keys.map (fun k => |Spec.counter c k - Spec.counter p k|)).sum := by
  unfold Spec.absTotal
  exact List.sum_toFinset _ hwf

theorem exampleCurrent_int : exampleCurrent.IntCounters := by
  intro kv hkv
  simp only [exampleCurrent, List.mem_cons, List.mem_singleton, List.not_mem_nil,
    or_false] at hkv
  rcases hkv with rfl | rfl | rfl | rfl | rfl | rfl | rfl | rfl | rfl
  · exact ⟨150, by norm_num, by norm_num⟩
  · exact ⟨0, by norm_num, by norm_num⟩
  · exact ⟨0, by norm_num, by norm_num⟩
  · exact ⟨240, by norm_num, by norm_num⟩
  · exact ⟨0, by norm_num, by norm_num⟩
  · exact ⟨0, by norm_num, by norm_num⟩
  · exact ⟨0, by norm_num, by norm_num⟩
  · exact ⟨0, by norm_num, by norm_num⟩
  · exact ⟨0, by norm_num, by norm_num⟩

theorem examplePrevious_int : examplePrevious.IntCounters := by
  intro kv hkv
  simp only [examplePrevious, List.mem_cons, List.mem_singleton, List.not_mem_nil,
    or_false] at hkv
  rcases hkv with rfl | rfl | rfl | rfl | rfl | rfl | rfl | rfl | rfl
  · exact ⟨100, by norm_num, by norm_num⟩
  · exact ⟨0, by norm_num, by norm_num⟩
  · exact ⟨0, by norm_num, by norm_num⟩
  · exact ⟨200, by norm_num, by norm_num⟩
  · exact ⟨0, by norm_num, by norm_num⟩
  · exact ⟨0, by norm_num, by norm_num⟩
  · exact ⟨0, by norm_num, by norm_num⟩
  · exact ⟨0, by norm_num, by norm_num⟩
  · exact ⟨0, by norm_num, by norm_num⟩

theorem nearTieCurrent_int : nearTieCurrent.IntCounters := by
  intro kv hkv
  simp only [nearTieCurrent, List.mem_cons, List.mem_singleton, List.not_mem_nil,
    or_false] at hkv
  rcases hkv with rfl | rfl
  · exact ⟨799880013331, by norm_num, by norm_num⟩
  · exact ⟨120000002, by norm_num, by norm_num⟩

theorem zeroSnapshot_int : zeroSnapshot.IntCounters := by
  intro kv hkv
  simp only [zeroSnapshot, List.mem_cons, List.mem_singleton, List.not_mem_nil,
    or_false] at hkv
  rcases hkv with rfl | rfl
  · exact ⟨0, by norm_num, by norm_num⟩
  · exact ⟨0, by norm_num, by norm_num⟩

theorem example_sums :
    (exampleCurrent.keys.map
        (fun k => Spec.counter exampleCurrent k - Spec.counter examplePrevious k)).sum = 90
      ∧ (exampleCurrent.keys.map
        (fun k => |Spec.counter exampleCurrent k - Spec.counter examplePrevious k|)).sum = 90
      ∧ Spec.counter exampleCurrent "idle" - Spec.counter examplePrevious "idle" = 40 := by
  refine ⟨?_, ?_, ?_⟩ <;>
    simp [exampleCurrent, examplePrevious, Snapshot.keys, Spec.counter, List.lookup] <;>
    norm_num

theorem nearTie_sums :
    (nearTieCurrent.keys.map
        (fun k => Spec.counter nearTieCurrent k - Spec.counter zeroSnapshot k)).sum
        = 800000013333
      ∧ (nearTieCurrent.keys.map
        (fun k => |Spec.counter nearTieCurrent k - Spec.counter zeroSnapshot k|)).sum
        = 800000013333
      ∧ Spec.counter nearTieCurrent "idle" - Spec.counter zeroSnapshot "idle" = 120000002 := by
  refine ⟨?_, ?_, ?_⟩ <;>
    simp [nearTieCurrent, zeroSnapshot, Snapshot.keys, Spec.counter, List.lookup] <;>
    norm_num

theorem same_sums :
    (examplePrevious.keys.map
        (fun k => Spec.counter examplePrevious k - Spec.counter examplePrevious k)).sum = 0
      ∧ (examplePrevious.keys.map
        (fun k => |Spec.counter examplePrevious k - Spec.counter examplePrevious k|)).sum = 0
      ∧ Spec.counter examplePrevious "idle" - Spec.counter examplePrevious "idle" = 0 := by
  refine ⟨?_, ?_, ?_⟩ <;> simp

/-- The number the literal `55.56` denotes is finite. -/
theorem JSNum.ofRat_55_56 :
    JSNum.ofRat (5556 / 100) = JSNum.fin (7819374853022024 * (2 : ℚ) ^ (-47 : ℤ)) := by
  rw [JSNum.ofRat_of_abs_lt _ (by rw [Double.round_55_56, abs_lt]; constructor <;> norm_num),
    Double.round_55_56]

/-- The number the literal `99.99` denotes is finite. -/
theorem JSNum.ofRat_99_99 :
    JSNum.ofRat (9999 / 100) = JSNum.fin (7036170730324623 * (2 : ℚ) ^ (-46 : ℤ)) := by
  rw [JSNum.ofRat_of_abs_lt _ (by rw [Double.round_99_99, abs_lt]; constructor <;> norm_num),
    Double.round_99_99]

/-- The number the literal `99.98` denotes is finite. -/
theorem JSNum.ofRat_99_98 :
    JSNum.ofRat (9998 / 100) = JSNum.fin (7035467042882847 * (2 : ℚ) ^ (-46 : ℤ)) := by
  rw [JSNum.ofRat_of_abs_lt _ (by rw [Double.round_99_98, abs_lt]; constructor <;> norm_num),
    Double.round_99_98]

/-- The worked example evaluates to the number `55.56`. -/
theorem getCPUPrecent_example :
    getCPUPrecent exampleCurrent examplePrevious = JSNum.ofRat (5556 / 100) := by
  obtain ⟨hT, hA, hd⟩ := example_sums
  rw [(getCPUPrecent_exact exampleCurrent examplePrevious (fun _ => Iff.rfl) (by decide)
    exampleCurrent_int examplePrevious_int (by rw [hA]; norm_num) (by rw [hT]; norm_num)).1,
    hT, hd, show ((90 : ℚ) - 40) * 10000 / 90 = 500000 / 90 by norm_num,
    Double.round_example_quotient]
  have hfloor : ⌊(6108397932088889 : ℚ) * (2 : ℚ) ^ (-40 : ℤ) + 1 / 2⌋ = 5556 := by
    rw [Int.floor_eq_iff]
    norm_num
  rw [hfloor]
  push_cast
  rfl

/-- The near-tie pair evaluates to the number `99.99`. -/
theorem getCPUPrecent_nearTie :
    getCPUPrecent nearTieCurrent zeroSnapshot = JSNum.ofRat (9999 / 100) := by
  obtain ⟨hT, hA, hd⟩ := nearTie_sums
  rw [(getCPUPrecent_exact nearTieCurrent zeroSnapshot (fun _ => Iff.rfl) (by decide)
    nearTieCurrent_int zeroSnapshot_int (by rw [hA]; norm_num) (by rw [hT]; norm_num)).1,
    hT, hd, show ((800000013333 : ℚ) - 120000002) * 10000 / 800000013333
      = 7998800133310000 / 800000013333 by norm_num,
    Double.round_near_tie_quotient]
  have hfloor : ⌊(19997 : ℚ) / 2 + 1 / 2⌋ = 9999 := by
    rw [Int.floor_eq_iff]
    norm_num
  rw [hfloor]
  push_cast
  rfl

/-- Two identical snapshots: the total is zero and the code computes `0 / 0`. -/
theorem getCPUPrecent_same_example :
    getCPUPrecent examplePrevious examplePrevious = JSNum.nan := by
  obtain ⟨hT, hA, hd⟩ := same_sums
  obtain ⟨h1, h2, -, -⟩ := totle_idle_exact examplePrevious examplePrevious (fun _ => Iff.rfl)
    (by decide) examplePrevious_int examplePrevious_int (by rw [hA]; norm_num)
  unfold getCPUPrecent
  simp only []
  rw [h1, h2, hT, hd, JSNum.fin_sub_fin, sub_zero, JSNum.ofRat_zero, JSNum.fin_mul_fin,
    zero_mul, JSNum.ofRat_zero, JSNum.zero_div_zero, JSNum.round_nan, JSNum.nan_div]

/-! ## Overflow -/

theorem Double.round_two_pow (k : ℕ) : Double.round ((2 : ℚ) ^ k) = (2 : ℚ) ^ k := by
  have h := Double.round_int_mul_zpow 1 (k : ℤ) (by omega) (by norm_num)
  simpa using h

theorem JSNum.ofRat_two_pow_1023 : JSNum.ofRat ((2 : ℚ) ^ 1023) = JSNum.fin ((2 : ℚ) ^ 1023) := by
  rw [JSNum.ofRat_of_abs_lt _ (by rw [Double.round_two_pow, abs_lt]; constructor <;> norm_num),
    Double.round_two_pow]

theorem JSNum.ofRat_two_pow_1024 : JSNum.ofRat ((2 : ℚ) ^ 1024) = JSNum.posInf := by
  unfold JSNum.ofRat
  rw [Double.round_two_pow, if_pos le_rfl]

theorem JSNum.posInf_sub_fin (a : ℚ) : JSNum.posInf - JSNum.fin a = JSNum.posInf := rfl

theorem JSNum.posInf_mul_10000 : JSNum.posInf * JSNum.fin 10000 = JSNum.posInf := by
  show JSNum.mul JSNum.posInf (JSNum.fin 10000) = _
  simp [JSNum.mul, JSNum.signedInf]

theorem JSNum.posInf_div_posInf : JSNum.posInf / JSNum.posInf = JSNum.nan := rfl

theorem hugeCurrent_get_user : hugeCurrent.get "user" = JSNum.fin ((2 : ℚ) ^ 1023) := by
  unfold Snapshot.get hugeCurrent
  rw [List.lookup_cons_self]
  exact JSNum.ofRat_two_pow_1023

theorem hugeCurrent_get_idle : hugeCurrent.get "idle" = JSNum.fin ((2 : ℚ) ^ 1023) := by
  unfold Snapshot.get hugeCurrent
  rw [List.lookup_cons, show ("idle" == "user") = false by decide, List.lookup_cons_self]
  exact JSNum.ofRat_two_pow_1023

theorem zeroSnapshot_get_user : zeroSnapshot.get "user" = JSNum.fin 0 := by
  unfold Snapshot.get zeroSnapshot
  rw [List.lookup_cons_self]
  exact JSNum.ofRat_zero

theorem zeroSnapshot_get_idle : zeroSnapshot.get "idle" = JSNum.fin 0 := by
  unfold Snapshot.get zeroSnapshot
  rw [List.lookup_cons, show ("idle" == "user") = false by decide, List.lookup_cons_self]
  exact JSNum.ofRat_zero

theorem hugeCurrent_keys : hugeCurrent.keys = ["user", "idle"] := by
  simp only [Snapshot.keys, hugeCurrent, List.map]

theorem two_pow_1023_add : (2 : ℚ) ^ 1023 + (2 : ℚ) ^ 1023 = (2 : ℚ) ^ 1024 := by
  have h : (2 : ℚ) ^ (1023 + 1) = (2 : ℚ) ^ 1023 * 2 := pow_succ (2 : ℚ) 1023
  have h2 : (1023 + 1 : ℕ) = 1024 := rfl
  rw [h2] at h
  rw [h, mul_two]

theorem huge_step1 :
    JSNum.fin 0 + (hugeCurrent.get "user" - zeroSnapshot.get "user")
      = JSNum.fin ((2 : ℚ) ^ 1023) := by
  rw [hugeCurrent_get_user, zeroSnapshot_get_user, JSNum.fin_sub_fin, sub_zero,
    JSNum.ofRat_two_pow_1023, JSNum.fin_add_fin, zero_add, JSNum.ofRat_two_pow_1023]

theorem huge_step2 :
    JSNum.fin ((2 : ℚ) ^ 1023) + (hugeCurrent.get "idle" - zeroSnapshot.get "idle")
      = JSNum.posInf := by
  rw [hugeCurrent_get_idle, zeroSnapshot_get_idle, JSNum.fin_sub_fin, sub_zero,
    JSNum.ofRat_two_pow_1023, JSNum.fin_add_fin, two_pow_1023_add, JSNum.ofRat_two_pow_1024]

theorem huge_totle :
    hugeCurrent.keys.foldl (fun totle key => totle + (hugeCurrent.get key - zeroSnapshot.get key))
      (JSNum.fin 0) = JSNum.posInf := by
  rw [hugeCurrent_keys, List.foldl_cons, List.foldl_cons, List.foldl_nil]
  rw [huge_step1, huge_step2]

/-- Counters that add up to `2 ^ 1024`: the sum overflows to `Infinity` and the result is
`Infinity / Infinity`. -/
theorem getCPUPrecent_huge : getCPUPrecent hugeCurrent zeroSnapshot = JSNum.nan := by
  unfold getCPUPrecent
  simp only []
  rw [huge_totle, hugeCurrent_get_idle, zeroSnapshot_get_idle, JSNum.fin_sub_fin, sub_zero,
    JSNum.ofRat_two_pow_1023, JSNum.posInf_sub_fin, JSNum.posInf_mul_10000,
    JSNum.posInf_div_posInf, JSNum.round_nan, JSNum.nan_div]

/-! ## C2: the percentage formula -/

theorem Spec.utilization_nearTie : Spec.utilization nearTieCurrent zeroSnapshot = 9998 / 100 := by
  obtain ⟨hT, -, hd⟩ := nearTie_sums
  have hf : ⌊((800000013333 : ℚ) - 120000002) * 10000 / 800000013333 + 1 / 2⌋ = 9998 := by
    rw [Int.floor_eq_iff]
    norm_num
  simp only [Spec.utilization, Spec.quotient, Spec.roundHalfUp, Spec.idleDelta,
    Spec.total_eq_sum nearTieCurrent zeroSnapshot (by decide), hT, hd, hf]
  norm_num

theorem huge_sums :
    (hugeCurrent.keys.map
        (fun k => Spec.counter hugeCurrent k - Spec.counter zeroSnapshot k)).sum
        = (2 : ℚ) ^ 1023 + (2 : ℚ) ^ 1023
      ∧ Spec.counter hugeCurrent "idle" - Spec.counter zeroSnapshot "idle" = (2 : ℚ) ^ 1023
      ∧ Spec.counter hugeCurrent "user" - Spec.counter zeroSnapshot "user" = (2 : ℚ) ^ 1023 := by
  have h1 : Spec.counter hugeCurrent "user" = (2 : ℚ) ^ 1023 := by
    unfold Spec.counter hugeCurrent
    rw [List.lookup_cons_self]
    rfl
  have h2 : Spec.counter hugeCurrent "idle" = (2 : ℚ) ^ 1023 := by
    unfold Spec.counter hugeCurrent
    rw [List.lookup_cons, show ("idle" == "user") = false by decide, List.lookup_cons_self]
    rfl
  have h3 : Spec.counter zeroSnapshot "user" = 0 := by
    unfold Spec.counter zeroSnapshot
    rw [List.lookup_cons_self]
    rfl
  have h4 : Spec.counter zeroSnapshot "idle" = 0 := by
    unfold Spec.counter zeroSnapshot
    rw [List.lookup_cons, show ("idle" == "user") = false by decide, List.lookup_cons_self]
    rfl
  rw [hugeCurrent_keys]
  simp only [List.map_cons, List.map_nil, List.sum_cons, List.sum_nil, h1, h2, h3, h4,
    sub_zero, add_zero]
  exact ⟨trivial, trivial, trivial⟩

theorem Spec.total_huge_pos : 0 < Spec.total hugeCurrent zeroSnapshot := by
  rw [Spec.total_eq_sum hugeCurrent zeroSnapshot (by rw [Snapshot.WellFormed, hugeCurrent_keys]; decide),
    huge_sums.1]
  positivity

theorem Spec.utilization_huge : Spec.utilization hugeCurrent zeroSnapshot = 50 := by
  obtain ⟨hT, hd, -⟩ := huge_sums
  have hx : (0 : ℚ) < (2 : ℚ) ^ 1023 := by positivity
  have hq : Spec.quotient hugeCurrent zeroSnapshot = 5000 := by
    simp only [Spec.quotient, Spec.idleDelta,
      Spec.total_eq_sum hugeCurrent zeroSnapshot
        (by rw [Snapshot.WellFormed, hugeCurrent_keys]; decide), hT, hd]
    generalize (2 : ℚ) ^ 1023 = x at hx
    field_simp
    ring
  have hf : ⌊(5000 : ℚ) + 1 / 2⌋ = 5000 := by
    rw [Int.floor_eq_iff]
    norm_num
  simp only [Spec.utilization, Spec.roundHalfUp, hq, hf]
  norm_num

/-- C2, as the claim states it, fails: the code computes in doubles.  On `nearTieCurrent`
against `zeroSnapshot` (one key set with `idle`, total 800000013333) the exact quotient is just
below 9998.5 and the formula gives 99.98, but the quotient rounds to the double 9998.5 and
`getCPUPrecent` returns the number 99.99.  On `hugeCurrent` against `zeroSnapshot` the formula
gives 50, but the sum overflows and `getCPUPrecent` returns `NaN`. -/
theorem getCPUPrecent_eq_spec_counterexample :
    nearTieCurrent.WellFormed ∧ nearTieCurrent.keys = zeroSnapshot.keys
      ∧ "idle" ∈ nearTieCurrent.keys
      ∧ Spec.total nearTieCurrent zeroSnapshot ≠ 0
      ∧ Spec.utilization nearTieCurrent zeroSnapshot = 9998 / 100
      ∧ getCPUPrecent nearTieCurrent zeroSnapshot = JSNum.ofRat (9999 / 100)
      ∧ getCPUPrecent nearTieCurrent zeroSnapshot
          ≠ JSNum.fin (Spec.utilization nearTieCurrent zeroSnapshot)
      ∧ getCPUPrecent nearTieCurrent zeroSnapshot
          ≠ JSNum.ofRat (Spec.utilization nearTieCurrent zeroSnapshot)
      ∧ hugeCurrent.WellFormed ∧ hugeCurrent.keys = zeroSnapshot.keys
      ∧ "idle" ∈ hugeCurrent.keys
      ∧ Spec.total hugeCurrent zeroSnapshot ≠ 0
      ∧ Spec.utilization hugeCurrent zeroSnapshot = 50
      ∧ getCPUPrecent hugeCurrent zeroSnapshot = JSNum.nan := by
  refine ⟨by decide, rfl, by decide, ?_, Spec.utilization_nearTie, getCPUPrecent_nearTie,
    ?_, ?_, ?_, hugeCurrent_keys.trans rfl, ?_, ne_of_gt Spec.total_huge_pos,
    Spec.utilization_huge,
    getCPUPrecent_huge⟩
  · rw [Spec.total_eq_sum nearTieCurrent zeroSnapshot (by decide), nearTie_sums.1]
    norm_num
  · rw [getCPUPrecent_nearTie, Spec.utilization_nearTie, JSNum.ofRat_99_99]
    intro h
    injection h with h
    norm_num at h
  · rw [getCPUPrecent_nearTie, Spec.utilization_nearTie, JSNum.ofRat_99_99, JSNum.ofRat_99_98]
    intro h
    injection h with h
    norm_num at h
  · rw [Snapshot.WellFormed, hugeCurrent_keys]
    decide
  · rw [hugeCurrent_keys]
    decide

/-- C2, amended. For snapshots `c` (current) and `p` (previous) over one key set that
contains `idle`, with integer counters below `2 ^ 53` in magnitude, 10000 times the sum of
the `|c[k] - p[k]|` below `2 ^ 53`, and `total = Σ_k (c[k] - p[k])` non-zero, `getCPUPrecent c p`
is the double nearest to `round(fl((total - idleDelta) * 10000 / total)) / 100`, where `fl`
rounds to the nearest double and `round` is round-half-up; it is finite, and it is the double
nearest to the exact value `round((total - idleDelta) * 10000 / total) / 100` whenever `fl`
does not move the quotient across a half-integer.  On the worked example (`user` 100 to 150,
`idle` 200 to 240, all other counters 0) it is the number 55.56. -/
theorem getCPUPrecent_eq_spec :
    (∀ c p : Snapshot, c.WellFormed → (∀ k, k ∈ c.keys ↔ k ∈ p.keys) → "idle" ∈ c.keys →
      c.IntCounters → p.IntCounters → 10000 * Spec.absTotal c p < (2 : ℚ) ^ 53 →
      Spec.total c p ≠ 0 →
        getCPUPrecent c p = Spec.utilizationDouble c p
        ∧ (∃ q : ℚ, getCPUPrecent c p = JSNum.fin q)
        ∧ (Spec.roundHalfUp (Double.round (Spec.quotient c p))
              = Spec.roundHalfUp (Spec.quotient c p) →
            getCPUPrecent c p = JSNum.ofRat (Spec.utilization c p)))
    ∧ getCPUPrecent exampleCurrent examplePrevious = JSNum.ofRat (5556 / 100) := by
  refine ⟨?_, getCPUPrecent_example⟩
  intro c p hwf hkeys hidle hic hip hb ht
  have hsum := Spec.total_eq_sum c p hwf
  have hasum := Spec.absTotal_eq_sum c p hwf
  obtain ⟨h1, h2⟩ := getCPUPrecent_exact c p hkeys hidle hic hip (hasum ▸ hb) (hsum ▸ ht)
  have hval : getCPUPrecent c p = Spec.utilizationDouble c p := by
    rw [h1]
    simp only [Spec.utilizationDouble, Spec.quotient, Spec.roundHalfUp, Spec.idleDelta, hsum]
  refine ⟨hval, ⟨_, h1.trans h2⟩, ?_⟩
  intro hsame
  rw [hval, Spec.utilizationDouble, hsame, Spec.utilization]

/-- C2, amended, at the worked example: the hypotheses hold there and the value is the
formula's. -/
theorem getCPUPrecent_eq_spec_witness :
    exampleCurrent.WellFormed ∧ "idle" ∈ exampleCurrent.keys
      ∧ exampleCurrent.IntCounters ∧ examplePrevious.IntCounters
      ∧ 10000 * Spec.absTotal exampleCurrent examplePrevious < (2 : ℚ) ^ 53
      ∧ Spec.total exampleCurrent examplePrevious ≠ 0
      ∧ getCPUPrecent exampleCurrent examplePrevious
          = Spec.utilizationDouble exampleCurrent examplePrevious :=
  ⟨by decide, by decide, exampleCurrent_int, examplePrevious_int,
    by rw [Spec.absTotal_eq_sum _ _ (by decide), example_sums.2.1]; norm_num,
    by rw [Spec.total_eq_sum _ _ (by decide), example_sums.1]; norm_num,
    (getCPUPrecent_eq_spec.1 exampleCurrent examplePrevious (by decide) (fun _ => Iff.rfl)
      (by decide) exampleCurrent_int examplePrevious_int
      (by rw [Spec.absTotal_eq_sum _ _ (by decide), example_sums.2.1]; norm_num)
      (by rw [Spec.total_eq_sum _ _ (by decide), example_sums.1]; norm_num)).1⟩

/-! ## C3: the range of the percentage -/

theorem hugeCurrent_nat : hugeCurrent.NatCounters := by
  intro kv hkv
  unfold hugeCurrent at hkv
  rcases List.mem_cons.mp hkv with rfl | hkv
  · exact ⟨2 ^ 1023, by rw [Nat.cast_pow, Nat.cast_ofNat]⟩
  · rcases List.mem_cons.mp hkv with rfl | hkv
    · exact ⟨2 ^ 1023, by rw [Nat.cast_pow, Nat.cast_ofNat]⟩
    · simp at hkv

theorem zeroSnapshot_nat : zeroSnapshot.NatCounters := by
  intro kv hkv
  unfold zeroSnapshot at hkv
  rcases List.mem_cons.mp hkv with rfl | hkv
  · exact ⟨0, by push_cast; rfl⟩
  · rcases List.mem_cons.mp hkv with rfl | hkv
    · exact ⟨0, by push_cast; rfl⟩
    · simp at hkv

/-- Rounding a value between 0 and a natural number below `2 ^ 53` keeps it there. -/
theorem Double.round_mem_Icc (x : ℚ) (B : ℕ) (hB : B < 2 ^ 53) (h0 : 0 ≤ x) (hx : x ≤ B) :
    0 ≤ Double.round x ∧ Double.round x ≤ B := by
  refine ⟨Double.round_nonneg x h0, ?_⟩
  have h := Double.abs_round_le x B hB (by rw [abs_of_nonneg h0]; exact hx)
  exact le_trans (le_abs_self _) h

/-- C3, as the claim states it, fails: the code computes in doubles.  The snapshots
`hugeCurrent` and `zeroSnapshot` have one key set, non-negative integer counters that do not
decrease, and total `2 ^ 1024`; the sum overflows to `Infinity`, and `getCPUPrecent` returns
`NaN`, which is not in the interval from 0 to 100. -/
theorem getCPUPrecent_range_counterexample :
    hugeCurrent.WellFormed ∧ zeroSnapshot.WellFormed
      ∧ hugeCurrent.keys = zeroSnapshot.keys
      ∧ hugeCurrent.NatCounters ∧ zeroSnapshot.NatCounters
      ∧ Spec.counter zeroSnapshot "user" ≤ Spec.counter hugeCurrent "user"
      ∧ Spec.counter zeroSnapshot "idle" ≤ Spec.counter hugeCurrent "idle"
      ∧ 0 < Spec.total hugeCurrent zeroSnapshot
      ∧ getCPUPrecent hugeCurrent zeroSnapshot = JSNum.nan
      ∧ ¬ (getCPUPrecent hugeCurrent zeroSnapshot).IsPercentage := by
  have hpos : (0 : ℚ) ≤ (2 : ℚ) ^ 1023 := by positivity
  refine ⟨?_, by decide, hugeCurrent_keys.trans rfl, hugeCurrent_nat, zeroSnapshot_nat,
    ?_, ?_, Spec.total_huge_pos, getCPUPrecent_huge, ?_⟩
  · rw [Snapshot.WellFormed, hugeCurrent_keys]
    decide
  · have h := huge_sums.2.2
    linarith
  · have h := huge_sums.2.1
    linarith
  · rw [getCPUPrecent_huge]
    rintro ⟨q, hq, -, -⟩
    exact JSNum.noConfusion hq

/-- C3, amended. For snapshots `c` and `p` over one key set that contains `idle`, with integer
counters below `2 ^ 53` in magnitude that do not decrease (`p[k] ≤ c[k]` for every key `k`),
and with a positive total such that 10000 times the total is below `2 ^ 53`,
`getCPUPrecent c p` is a finite number in the closed interval from 0 to 100. -/
theorem getCPUPrecent_range (c p : Snapshot) (hwf : c.WellFormed)
    (hkeys : ∀ k, k ∈ c.keys ↔ k ∈ p.keys) (hidle : "idle" ∈ c.keys)
    (hic : c.IntCounters) (hip : p.IntCounters)
    (hmono : ∀ k ∈ c.keys, Spec.counter p k ≤ Spec.counter c k)
    (hb : 10000 * Spec.total c p < (2 : ℚ) ^ 53) (ht : 0 < Spec.total c p) :
    (getCPUPrecent c p).IsPercentage := by
  have hsum := Spec.total_eq_sum c p hwf
  rw [hsum] at ht hb
  have habs : c.keys.map (fun k => |Spec.counter c k - Spec.counter p k|)
      = c.keys.map (fun k => Spec.counter c k - Spec.counter p k) := by
    apply List.map_congr_left
    intro k hk
    exact abs_of_nonneg (sub_nonneg.mpr (hmono k hk))
  obtain ⟨h1, h2⟩ := getCPUPrecent_exact c p hkeys hidle hic hip (by rw [habs]; exact hb)
    (ne_of_gt ht)
  set T : ℚ := (c.keys.map (fun k => Spec.counter c k - Spec.counter p k)).sum with hT
  set d : ℚ := Spec.counter c "idle" - Spec.counter p "idle" with hd
  have hd0 : 0 ≤ d := sub_nonneg.mpr (hmono _ hidle)
  have hdT : d ≤ T := by
    apply List.single_le_sum
    · intro x hx
      simp only [List.mem_map] at hx
      obtain ⟨k, hk, rfl⟩ := hx
      exact sub_nonneg.mpr (hmono k hk)
    · exact List.mem_map.mpr ⟨"idle", hidle, rfl⟩
  have hx0 : 0 ≤ (T - d) * 10000 / T :=
    div_nonneg (mul_nonneg (sub_nonneg.mpr hdT) (by norm_num)) ht.le
  have hx1 : (T - d) * 10000 / T ≤ ((10000 : ℕ) : ℚ) := by
    rw [div_le_iff₀ ht]
    push_cast
    nlinarith
  obtain ⟨hy0, hy1⟩ := Double.round_mem_Icc _ 10000 (by norm_num) hx0 hx1
  push_cast at hy1
  have hN0 : (0 : ℤ) ≤ ⌊Double.round ((T - d) * 10000 / T) + 1 / 2⌋ :=
    Int.floor_nonneg.mpr (by linarith)
  have hN1 : ⌊Double.round ((T - d) * 10000 / T) + 1 / 2⌋ ≤ 10000 := by
    have hlt : ⌊Double.round ((T - d) * 10000 / T) + 1 / 2⌋ < 10001 := by
      rw [Int.floor_lt]
      push_cast
      linarith
    omega
  have hN0q : (0 : ℚ) ≤ ((⌊Double.round ((T - d) * 10000 / T) + 1 / 2⌋ : ℤ) : ℚ) := by
    exact_mod_cast hN0
  have hN1q : ((⌊Double.round ((T - d) * 10000 / T) + 1 / 2⌋ : ℤ) : ℚ) ≤ 10000 := by
    exact_mod_cast hN1
  obtain ⟨hz0, hz1⟩ := Double.round_mem_Icc
    (((⌊Double.round ((T - d) * 10000 / T) + 1 / 2⌋ : ℤ) : ℚ) / 100) 100 (by norm_num)
    (div_nonneg hN0q (by norm_num))
    (by rw [div_le_iff₀ (by norm_num)]; push_cast; linarith)
  push_cast at hz1
  exact ⟨_, h1.trans h2, hz0, hz1⟩

/-- C3, amended, at the worked example: its counters do not decrease, its total is 90, and the
value is a percentage. -/
theorem getCPUPrecent_range_witness :
    exampleCurrent.WellFormed ∧ 0 < Spec.total exampleCurrent examplePrevious
      ∧ 10000 * Spec.total exampleCurrent examplePrevious < (2 : ℚ) ^ 53
      ∧ (getCPUPrecent exampleCurrent examplePrevious).IsPercentage :=
  ⟨by decide, by rw [Spec.total_eq_sum _ _ (by decide), example_sums.1]; norm_num,
    by rw [Spec.total_eq_sum _ _ (by decide), example_sums.1]; norm_num,
    getCPUPrecent_range exampleCurrent examplePrevious (by decide) (fun _ => Iff.rfl)
      (by decide) exampleCurrent_int examplePrevious_int
      (by
        intro k hk
        simp only [exampleCurrent, Snapshot.keys, List.map, List.mem_cons, List.mem_singleton,
          List.not_mem_nil, or_false] at hk
        rcases hk with rfl | rfl | rfl | rfl | rfl | rfl | rfl | rfl | rfl <;>
          simp [Spec.counter, exampleCurrent, examplePrevious, List.lookup] <;> norm_num)
      (by rw [Spec.total_eq_sum _ _ (by decide), example_sums.1]; norm_num)
      (by rw [Spec.total_eq_sum _ _ (by decide), example_sums.1]; norm_num)⟩

/-! ## The window -/

/-- On a window of eleven entries, push-then-shift drops the oldest entry and keeps the rest
in order. -/
theorem pushShift_full (w : List JSNum) (x : JSNum) (hw : w.length = 11) :
    pushShift w x = w.tail ++ [x] ∧ (pushShift w x).length = 11 := by
  cases w with
  | nil => simp at hw
  | cons a w =>
    simp only [List.length_cons] at hw
    have hlen : w.length = 10 := by omega
    simp [pushShift, hlen]

/-- Feeding samples one by one into a window of eleven entries keeps the eleven most recent
entries of the whole sequence. -/
theorem foldl_pushShift (ss w : List JSNum) (hw : w.length = 11) :
    ss.foldl pushShift w = (w ++ ss).drop ss.length := by
  induction ss generalizing w with
  | nil => simp
  | cons x ss ih =>
    obtain ⟨h1, h2⟩ := pushShift_full w x hw
    rw [List.foldl_cons, ih _ h2, h1]
    cases w with
    | nil => simp at hw
    | cons a w => simp

/-! ## Sampling rounds -/

/-- A round on an idle sampler without a stored snapshot stores the response and nothing else. -/
theorem round_baseline (s : State) (r : Snapshot) (ha : s.aborter = none)
    (hi : s.inflight = 0) (hp : s.pre = none) :
    step (step s Event.tick) (Event.success r) = { s with pre := some r } := by
  cases s
  simp_all [step, getCPUTimes, onSuccess]

/-- A round on an idle sampler with a stored snapshot records one sample against it and
stores the response. -/
theorem round_sample (s : State) (r p : Snapshot) (ha : s.aborter = none)
    (hi : s.inflight = 0) (hp : s.pre = some p) :
    step (step s Event.tick) (Event.success r)
      = { s with pre := some r, data := pushShift s.data (getCPUPrecent r p) } := by
  cases s
  simp_all [step, getCPUTimes, onSuccess]

theorem run_cons (s : State) (e : Event) (es : List Event) :
    run s (e :: es) = run (step s e) es := rfl

/-- Rounds on an idle sampler with a stored snapshot feed the samples, in order, into the
window, and change nothing else but the stored snapshot. -/
theorem run_rounds (rs : List Snapshot) (s : State) (p : Snapshot) (ha : s.aborter = none)
    (hi : s.inflight = 0) (hp : s.pre = some p) :
    run s (rounds rs)
      = { s with pre := some ((p :: rs).getLast (List.cons_ne_nil _ _)),
                 data := (samples p rs).foldl pushShift s.data } := by
  induction rs generalizing s p with
  | nil =>
    cases s
    simp_all [run, rounds, samples]
  | cons r rs ih =>
    have hstep : run s (rounds (r :: rs))
        = run (step (step s Event.tick) (Event.success r)) (rounds rs) := by
      simp [rounds, run, List.flatMap_cons]
    rw [hstep, round_sample s r p ha hi hp,
      ih { s with pre := some r, data := pushShift s.data (getCPUPrecent r p) } r ha hi rfl]
    simp [samples, List.getLast_cons]

/-! ## C1: one request at a time -/

theorem guarded_init : Guarded initState := by
  simp [Guarded, initState]

theorem guarded_step (s : State) (e : Event) (h : Guarded s) : Guarded (step s e) := by
  obtain ⟨timer, aborter, pre, data, intervals, nextHandle, inflight, staticGets⟩ := s
  unfold Guarded at h ⊢
  simp only at h
  cases e with
  | «show» => cases timer <;> simpa [step, «show», startGetCPUTimes] using h
  | startGetCPUTimes => cases timer <;> simpa [step, startGetCPUTimes] using h
  | tick => cases aborter <;> simp_all [step, getCPUTimes]
  | success r =>
    cases aborter <;> cases pre <;> simp_all [step, onSuccess]
  | error => cases aborter <;> simp_all [step, onError]
  | distory =>
    cases timer <;> cases aborter <;> simp_all [step, distory, Outcome.state]

theorem guarded_run (es : List Event) (s : State) (h : Guarded s) : Guarded (run s es) := by
  induction es generalizing s with
  | nil => exact h
  | cons e es ih => exact ih _ (guarded_step s e h)

/-- C1. In every state reached from the initial state by any sequence of `show`,
`startGetCPUTimes`, ticks, completions (success or error) and `distory`, at most one
`cpu_times` request is issued and not yet completed; and a tick that arrives while a request
is outstanding changes nothing, so it issues no new request. -/
theorem single_inflight (events : List Event) :
    (run initState events).inflight ≤ 1
      ∧ (0 < (run initState events).inflight →
          getCPUTimes (run initState events) = run initState events) := by
  have h := guarded_run events initState guarded_init
  unfold Guarded at h
  constructor
  · rw [h]; split <;> omega
  · intro hpos
    cases ha : (run initState events).aborter with
    | none => rw [ha] at h; simp at h; omega
    | some d => simp [getCPUTimes, ha]

/-! ## Two concrete states -/

theorem pendingState_eq :
    pendingState = { timer := some 1, aborter := some ⟨false⟩, pre := some examplePrevious,
                     data := List.replicate 11 (JSNum.fin 0), intervals := [1], nextHandle := 2,
                     inflight := 1, staticGets := 4 } := by
  simp [pendingState, run, step, «show», startGetCPUTimes, getCPUTimes, onSuccess, initState]

theorem reactivatedState_eq :
    reactivatedState = { timer := some 2, aborter := none, pre := some examplePrevious,
                         data := List.replicate 11 (JSNum.fin 0), intervals := [2],
                         nextHandle := 3, inflight := 0, staticGets := 8 } := by
  simp [reactivatedState, run, step, «show», startGetCPUTimes, getCPUTimes, onSuccess, initState,
    distory, Outcome.state]

/-! ## C4: teardown while a request is outstanding -/

/-- C4, evaluated on the code. In `pendingState` the timer runs, a request is outstanding and
`cpu.pre` is `examplePrevious`.  The call `distory()` clears the timer and then throws at
`cpu.resolve()`, leaving `cpu.aborter` and the request in place; the late success with
`exampleCurrent` then replaces `cpu.pre` and puts the number 55.56 into the window. -/
theorem distory_then_late_success :
    pendingState.aborter.isSome ∧ 0 < pendingState.inflight
      ∧ distory pendingState
          = Outcome.typeError { pendingState with timer := none, intervals := [] }
      ∧ pendingState.pre = some examplePrevious
      ∧ pendingState.data = List.replicate 11 (JSNum.fin 0)
      ∧ (run pendingState [Event.distory, Event.success exampleCurrent]).pre
          = some exampleCurrent
      ∧ (run pendingState [Event.distory, Event.success exampleCurrent]).data
          = List.replicate 10 (JSNum.fin 0) ++ [JSNum.ofRat (5556 / 100)]
      ∧ (run pendingState [Event.distory, Event.success exampleCurrent]).pre ≠ pendingState.pre
      ∧ (run pendingState [Event.distory, Event.success exampleCurrent]).data
          ≠ pendingState.data := by
  have hne : exampleCurrent ≠ examplePrevious := by
    simp [exampleCurrent, examplePrevious]
  have hval : JSNum.ofRat (5556 / 100) ≠ JSNum.fin 0 := by
    rw [JSNum.ofRat_55_56]
    intro h
    injection h with h
    norm_num at h
  rw [pendingState_eq]
  simp [run, step, distory, Outcome.state, onSuccess, getCPUPrecent_example, pushShift,
    List.replicate, hne, hval]

/-! ## C5: a zero total -/

/-- C5, evaluated on the code. In `pendingState` the stored snapshot is `examplePrevious`;
when the outstanding request succeeds with the same snapshot again, the total is zero,
`getCPUPrecent` returns `NaN`, and `NaN` is put into the window. -/
theorem zero_total_appends_nan :
    Spec.total examplePrevious examplePrevious = 0
      ∧ getCPUPrecent examplePrevious examplePrevious = JSNum.nan
      ∧ (step pendingState (Event.success examplePrevious)).data
          = List.replicate 10 (JSNum.fin 0) ++ [JSNum.nan] := by
  refine ⟨?_, getCPUPrecent_same_example, ?_⟩
  · rw [Spec.total_eq_sum _ _ (by decide)]
    simp [examplePrevious, Snapshot.keys, Spec.counter, List.lookup]
  · rw [pendingState_eq]
    simp [step, onSuccess, getCPUPrecent_same_example, pushShift, List.replicate]

/-! ## C6: fifteen samples -/

/-- C6. From the initial state, after `show`, a first round that stores `r0`, and fifteen more
rounds with responses `rs` (which record the samples `samples r0 rs`, in that order), the
window has exactly eleven entries, and they are samples 5 to 15 in their original order. -/
theorem window_after_fifteen (r0 : Snapshot) (rs : List Snapshot) (h : rs.length = 15) :
    (run initState (Event.show :: rounds (r0 :: rs))).data = (samples r0 rs).drop 4
      ∧ (run initState (Event.show :: rounds (r0 :: rs))).data.length = 11 := by
  have hrun : run initState (Event.show :: rounds (r0 :: rs))
      = run (step (step («show» initState) Event.tick) (Event.success r0)) (rounds rs) := by
    simp [rounds, run, List.flatMap_cons, step]
  have hlen : (samples r0 rs).length = 15 := by
    simp [samples, List.length_zipWith, h]
  have hdata : (run initState (Event.show :: rounds (r0 :: rs))).data = (samples r0 rs).drop 4 := by
    rw [hrun, round_baseline _ r0 rfl rfl rfl, run_rounds rs _ r0 rfl rfl rfl]
    simp only
    rw [foldl_pushShift _ _ (by simp [«show», startGetCPUTimes, initState]), hlen]
    have h11 : («show» initState).data.length = 11 := by
      simp [«show», startGetCPUTimes, initState]
    have : (15 : ℕ) = («show» initState).data.length + 4 := by rw [h11]
    rw [this, List.drop_append]
  refine ⟨hdata, ?_⟩
  rw [hdata, List.length_drop, hlen]

/-- C6 on sixteen concrete responses. -/
theorem window_after_fifteen_witness :
    (List.replicate 15 exampleCurrent).length = 15
      ∧ (run initState
          (Event.show :: rounds (examplePrevious :: List.replicate 15 exampleCurrent))).data
        = (samples examplePrevious (List.replicate 15 exampleCurrent)).drop 4 :=
  ⟨by simp, (window_after_fifteen examplePrevious (List.replicate 15 exampleCurrent)
    (by simp)).1⟩

/-! ## C7: when the head is evicted -/

/-- No event changes the number of entries of a window of eleven. -/
theorem window_length_step (s : State) (e : Event) (h : s.data.length = 11) :
    (step s e).data.length = 11 := by
  obtain ⟨timer, aborter, pre, data, intervals, nextHandle, inflight, staticGets⟩ := s
  simp only at h
  cases e with
  | «show» => cases timer <;> simpa [step, «show», startGetCPUTimes] using h
  | startGetCPUTimes => cases timer <;> simpa [step, startGetCPUTimes] using h
  | tick => cases aborter <;> simpa [step, getCPUTimes] using h
  | success r =>
    by_cases hreq : 0 < inflight
    · cases pre with
      | none => simpa [step, hreq, onSuccess] using h
      | some p =>
        simp only [step, hreq, if_true, onSuccess]
        exact (pushShift_full data _ h).2
    · simpa [step, hreq] using h
  | error =>
    by_cases hreq : 0 < inflight
    · simpa [step, hreq, onError] using h
    · simpa [step, hreq] using h
  | distory => cases timer <;> cases aborter <;> simpa [step, distory, Outcome.state] using h

/-- Every window the controller holds has eleven entries. -/
theorem window_length_run (events : List Event) (s : State) (h : s.data.length = 11) :
    (run s events).data.length = 11 := by
  induction events generalizing s with
  | nil => exact h
  | cons e es ih => exact ih _ (window_length_step s e h)

/-- C7. In every state the controller reaches from its initial state, the window `w` has at
most 11 entries (it has exactly 11), and when a request completes successfully against a
stored snapshot `p` the append step, with `x = getCPUPrecent r p`, yields `w ++ [x]` when
`length w + 1 ≤ 11` and `tail (w ++ [x])` exactly when `length w + 1` exceeds 11.  Apart from
the states reached, push-then-shift on any window of at most nine entries appends without
evicting. -/
theorem append_contract (events : List Event) (r p : Snapshot)
    (hreq : 0 < (run initState events).inflight) (hp : (run initState events).pre = some p) :
    (run initState events).data.length ≤ 11
      ∧ ((run initState events).data.length + 1 ≤ 11 →
          (step (run initState events) (Event.success r)).data
            = (run initState events).data ++ [getCPUPrecent r p])
      ∧ (11 < (run initState events).data.length + 1 →
          (step (run initState events) (Event.success r)).data
            = ((run initState events).data ++ [getCPUPrecent r p]).tail)
      ∧ ((step (run initState events) (Event.success r)).data
            = ((run initState events).data ++ [getCPUPrecent r p]).tail
          ↔ 11 < (run initState events).data.length + 1)
      ∧ (step (run initState events) (Event.success r)).data.length = 11
      ∧ (∀ (w : List JSNum) (x : JSNum), w.length + 1 < 11 → pushShift w x = w ++ [x]) := by
  have hlen : (run initState events).data.length = 11 :=
    window_length_run events initState (by simp [initState])
  have hdata : (step (run initState events) (Event.success r)).data
      = ((run initState events).data ++ [getCPUPrecent r p]).tail := by
    have h1 : (step (run initState events) (Event.success r)).data
        = pushShift (run initState events).data (getCPUPrecent r p) := by
      simp [step, hreq, onSuccess, hp]
    rw [h1]
    unfold pushShift
    simp [hlen]
  refine ⟨by omega, fun h => by omega, fun _ => hdata, ⟨fun _ => by omega, fun _ => hdata⟩,
    ?_, ?_⟩
  · rw [hdata]
    simp [hlen]
  · intro w x hw
    unfold pushShift
    simp only [List.length_append, List.length_singleton]
    rw [if_neg (by omega)]

/-- C7 after `show`, one round that stored `examplePrevious`, and one more tick: the request
is outstanding and its success pushes the sample and evicts the head. -/
theorem append_contract_witness :
    0 < (run initState
        [Event.show, Event.tick, Event.success examplePrevious, Event.tick]).inflight
      ∧ (run initState
        [Event.show, Event.tick, Event.success examplePrevious, Event.tick]).pre
          = some examplePrevious
      ∧ (step (run initState
          [Event.show, Event.tick, Event.success examplePrevious, Event.tick])
          (Event.success exampleCurrent)).data
        = ((run initState
            [Event.show, Event.tick, Event.success examplePrevious, Event.tick]).data
          ++ [getCPUPrecent exampleCurrent examplePrevious]).tail :=
  ⟨by rw [← pendingState, pendingState_eq]; decide, by rw [← pendingState, pendingState_eq],
    ((append_contract [Event.show, Event.tick, Event.success examplePrevious, Event.tick]
      exampleCurrent examplePrevious (by rw [← pendingState, pendingState_eq]; decide)
      (by rw [← pendingState, pendingState_eq])).2.2.2.1).2
      (by rw [← pendingState, pendingState_eq]; decide)⟩

/-! ## C8: the baseline -/

/-- An event other than a successful completion leaves `cpu.pre` and the window as they are. -/
theorem frame_step (s : State) (e : Event) (h : e.isSuccess = false) :
    (step s e).pre = s.pre ∧ (step s e).data = s.data := by
  obtain ⟨timer, aborter, pre, data, intervals, nextHandle, inflight, staticGets⟩ := s
  cases e with
  | «show» => cases timer <;> simp [step, «show», startGetCPUTimes]
  | startGetCPUTimes => cases timer <;> simp [step, startGetCPUTimes]
  | tick => cases aborter <;> simp [step, getCPUTimes]
  | success r => simp [Event.isSuccess] at h
  | error =>
    by_cases hreq : 0 < inflight
    · simp [step, hreq, onError]
    · simp [step, hreq]
  | distory => cases timer <;> cases aborter <;> simp [step, distory, Outcome.state]

theorem frame_run (es : List Event) (s : State) (h : ∀ e ∈ es, e.isSuccess = false) :
    (run s es).pre = s.pre ∧ (run s es).data = s.data := by
  induction es generalizing s with
  | nil => exact ⟨rfl, rfl⟩
  | cons e es ih =>
    obtain ⟨h1, h2⟩ := frame_step s e (h e (List.mem_cons_self _ _))
    obtain ⟨h3, h4⟩ := ih (step s e) (fun x hx => h x (List.mem_cons_of_mem _ hx))
    rw [run_cons]
    exact ⟨h3.trans h1, h4.trans h2⟩

/-- A successful completion of an outstanding request. -/
theorem success_step (s : State) (r : Snapshot) (hreq : 0 < s.inflight) :
    (step s (Event.success r)).pre = some r
      ∧ (s.pre = none → (step s (Event.success r)).data = s.data)
      ∧ (∀ p, s.pre = some p →
          (step s (Event.success r)).data = pushShift s.data (getCPUPrecent r p)) := by
  obtain ⟨timer, aborter, pre, data, intervals, nextHandle, inflight, staticGets⟩ := s
  simp only at hreq
  cases pre with
  | none => simp [step, hreq, onSuccess]
  | some q => simp [step, hreq, onSuccess]

/-- C8, as the claim states it, fails on a re-activation: `reactivatedState` is reached by
`show`, one round, `distory`, `show`; its first successful completion after that `show`
already puts a sample (the number 55.56, against the snapshot kept from before `distory`)
into the window. -/
theorem baseline_first_counterexample :
    reactivatedState
        = run initState [Event.show, Event.tick, Event.success examplePrevious,
            Event.distory, Event.show]
      ∧ reactivatedState.data = List.replicate 11 (JSNum.fin 0)
      ∧ (run reactivatedState [Event.tick, Event.success exampleCurrent]).data
          = List.replicate 10 (JSNum.fin 0) ++ [JSNum.ofRat (5556 / 100)]
      ∧ (run reactivatedState [Event.tick, Event.success exampleCurrent]).data
          ≠ reactivatedState.data := by
  have hval : JSNum.ofRat (5556 / 100) ≠ JSNum.fin 0 := by
    rw [JSNum.ofRat_55_56]
    intro h
    injection h with h
    norm_num at h
  refine ⟨rfl, ?_, ?_, ?_⟩
  · rw [reactivatedState_eq]
  · rw [reactivatedState_eq]
    simp [run, step, getCPUTimes, onSuccess, getCPUPrecent_example, pushShift, List.replicate]
  · rw [reactivatedState_eq]
    simp [run, step, getCPUTimes, onSuccess, getCPUPrecent_example, pushShift, List.replicate,
      hval]

/-- C8, amended. For an activation (`show` or `startGetCPUTimes`) in a state with no previous
snapshot, as the initial state is: whatever ticks, failures, activations and `distory` calls
come in between, the first successful completion after it stores its snapshot as `cpu.pre`
and leaves the window as it was, and the second one records exactly one sample, computed
against the first snapshot, by push-then-shift.  The function `distory` keeps `cpu.pre` and
the window, so a later activation starts with the snapshot still stored. -/
theorem baseline_first :
    (∀ (s : State) (e : Event) (before between : List Event) (r1 r2 : Snapshot),
      e.isActivation = true → s.pre = none →
      (∀ x ∈ before, x.isSuccess = false) → (∀ x ∈ between, x.isSuccess = false) →
      0 < (run s (e :: before)).inflight →
      0 < (run (step (run s (e :: before)) (Event.success r1)) between).inflight →
        (step (run s (e :: before)) (Event.success r1)).pre = some r1
        ∧ (step (run s (e :: before)) (Event.success r1)).data = s.data
        ∧ (step (run (step (run s (e :: before)) (Event.success r1)) between)
            (Event.success r2)).data = pushShift s.data (getCPUPrecent r2 r1)
        ∧ (step (run (step (run s (e :: before)) (Event.success r1)) between)
            (Event.success r2)).pre = some r2)
      ∧ (∀ s : State, (distory s).state.pre = s.pre ∧ (distory s).state.data = s.data) := by
  constructor
  · intro s e before between r1 r2 he hp hb1 hb2 hreq1 hreq2
    have hall : ∀ x ∈ e :: before, x.isSuccess = false := by
      intro x hx
      rcases List.mem_cons.mp hx with rfl | hx
      · cases x <;> simp [Event.isActivation] at he <;> rfl
      · exact hb1 x hx
    obtain ⟨f1, f2⟩ := frame_run (e :: before) s hall
    obtain ⟨a1, a2, -⟩ := success_step (run s (e :: before)) r1 hreq1
    obtain ⟨g1, g2⟩ := frame_run between (step (run s (e :: before)) (Event.success r1)) hb2
    obtain ⟨b1, -, b3⟩ :=
      success_step (run (step (run s (e :: before)) (Event.success r1)) between) r2 hreq2
    have hdata1 : (step (run s (e :: before)) (Event.success r1)).data = s.data :=
      (a2 (f1.trans hp)).trans f2
    refine ⟨a1, hdata1, ?_, b1⟩
    rw [b3 r1 (g1.trans a1), g2, hdata1]
  · intro s
    obtain ⟨timer, aborter, pre, data, intervals, nextHandle, inflight, staticGets⟩ := s
    cases timer <;> cases aborter <;> simp [distory, Outcome.state]

/-- C8, amended, from the initial state with `show` and one tick before each completion. -/
theorem baseline_first_witness :
    Event.show.isActivation = true ∧ initState.pre = none
      ∧ (step (run initState [Event.show, Event.tick]) (Event.success examplePrevious)).data
          = initState.data
      ∧ (step (run (step (run initState [Event.show, Event.tick])
            (Event.success examplePrevious)) [Event.tick]) (Event.success exampleCurrent)).data
          = pushShift initState.data (getCPUPrecent exampleCurrent examplePrevious) :=
  ⟨rfl, rfl,
    (baseline_first.1 initState Event.show [Event.tick] [Event.tick] examplePrevious
      exampleCurrent rfl rfl (by simp [Event.isSuccess]) (by simp [Event.isSuccess])
      (by simp [run, step, «show», startGetCPUTimes, getCPUTimes, initState])
      (by simp [run, step, «show», startGetCPUTimes, getCPUTimes, onSuccess, initState])).2.1,
    (baseline_first.1 initState Event.show [Event.tick] [Event.tick] examplePrevious
      exampleCurrent rfl rfl (by simp [Event.isSuccess]) (by simp [Event.isSuccess])
      (by simp [run, step, «show», startGetCPUTimes, getCPUTimes, initState])
      (by simp [run, step, «show», startGetCPUTimes, getCPUTimes, onSuccess, initState])).2.2.1⟩

/-! ## C9: a failed request -/

/-- C9. In a state with a request outstanding, its failure clears `cpu.aborter`, and leaves
`cpu.pre`, the window, `cpu.timer` and the active interval timers as they were; the next
tick then issues a new request. -/
theorem error_frame (s : State) (hreq : 0 < s.inflight) :
    (step s Event.error).aborter = none
      ∧ (step s Event.error).pre = s.pre
      ∧ (step s Event.error).data = s.data
      ∧ (step s Event.error).timer = s.timer
      ∧ (step s Event.error).intervals = s.intervals
      ∧ (step s Event.error).inflight = s.inflight - 1
      ∧ (getCPUTimes (step s Event.error)).aborter.isSome = true
      ∧ (getCPUTimes (step s Event.error)).inflight = (step s Event.error).inflight + 1 := by
  simp [step, hreq, onError, getCPUTimes]

/-- C9 in `pendingState`. -/
theorem error_frame_witness :
    0 < pendingState.inflight
      ∧ (step pendingState Event.error).aborter = none
      ∧ (step pendingState Event.error).pre = pendingState.pre
      ∧ (step pendingState Event.error).data = pendingState.data :=
  ⟨by rw [pendingState_eq]; decide,
    (error_frame pendingState (by rw [pendingState_eq]; decide)).1,
    (error_frame pendingState (by rw [pendingState_eq]; decide)).2.1,
    (error_frame pendingState (by rw [pendingState_eq]; decide)).2.2.1⟩

/-! ## C10: starting and stopping twice -/

/-- Activations on a running timer keep the handle and the active timers. -/
theorem run_activations_running (acts : List Event) (s : State) (h : Nat)
    (hall : ∀ e ∈ acts, e.isActivation = true) (ht : s.timer = some h) :
    (run s acts).timer = some h ∧ (run s acts).intervals = s.intervals := by
  induction acts generalizing s with
  | nil => exact ⟨ht, rfl⟩
  | cons e acts ih =>
    have he := hall e (List.mem_cons_self _ _)
    have hstep : (step s e).timer = some h ∧ (step s e).intervals = s.intervals := by
      cases e <;> simp [Event.isActivation] at he <;>
        simp [step, «show», startGetCPUTimes, ht]
    rw [run_cons]
    obtain ⟨h1, h2⟩ := ih (step s e) (fun x hx => hall x (List.mem_cons_of_mem _ hx)) hstep.1
    exact ⟨h1, h2.trans hstep.2⟩

/-- C10. When the timer is running, `startGetCPUTimes` changes nothing: no interval timer is
created and the stored handle stays.  So from a state without timers, any positive number of
consecutive activations leaves exactly one active interval timer, the one whose handle is
stored.  And `distory`, called when no timer is running and no request is outstanding,
returns with the state unchanged. -/
theorem start_stop_idempotent :
    (∀ s : State, s.timer.isSome = true → startGetCPUTimes s = s)
      ∧ (∀ (s : State) (acts : List Event), s.timer = none → s.intervals = [] → acts ≠ [] →
          (∀ e ∈ acts, e.isActivation = true) →
            (run s acts).intervals = [s.nextHandle] ∧ (run s acts).timer = some s.nextHandle)
      ∧ (∀ s : State, s.timer = none → s.aborter = none → distory s = Outcome.returned s) := by
  refine ⟨?_, ?_, ?_⟩
  · intro s hs
    cases ht : s.timer with
    | none => simp [ht] at hs
    | some h => simp [startGetCPUTimes, ht]
  · intro s acts ht hi hne hall
    cases acts with
    | nil => exact absurd rfl hne
    | cons e acts =>
      have he := hall e (List.mem_cons_self _ _)
      have hstep : (step s e).timer = some s.nextHandle
          ∧ (step s e).intervals = [s.nextHandle] := by
        cases e <;> simp [Event.isActivation] at he <;>
          simp [step, «show», startGetCPUTimes, ht, hi]
      rw [run_cons]
      obtain ⟨h1, h2⟩ := run_activations_running acts (step s e) s.nextHandle
        (fun x hx => hall x (List.mem_cons_of_mem _ hx)) hstep.1
      exact ⟨h2.trans hstep.2, h1⟩
  · intro s ht ha
    simp [distory, ht, ha]

/-- C10 on the initial state: a second `startGetCPUTimes` changes nothing. -/
theorem start_stop_idempotent_witness :
    (startGetCPUTimes initState).timer.isSome = true
      ∧ startGetCPUTimes (startGetCPUTimes initState) = startGetCPUTimes initState
      ∧ (run initState [Event.show, Event.startGetCPUTimes, Event.show]).intervals = [1]
      ∧ distory initState = Outcome.returned initState :=
  ⟨rfl, start_stop_idempotent.1 (startGetCPUTimes initState) rfl,
    (start_stop_idempotent.2.1 initState [Event.show, Event.startGetCPUTimes, Event.show]
      rfl rfl (by simp) (by simp [Event.isActivation])).1,
    start_stop_idempotent.2.2 initState rfl rfl⟩

end StorLever
